import Mathlib

/-!
Shallow embedding of the NEAR claim processor's Merkle-tree engine
(`src/merkle-tree.ts`, tuple-record variant, plus the record-form variant of
`convertValue`/`getRoot` from the companion byte-array implementation), with
theorems checking the natural-language specification against the code.

The 256-bit hash primitive (keccak256) is an external library call in the
source; it is modelled as an explicit function parameter `H : List Nat →
List Nat` on byte lists.  All structural properties proved here hold for
every such function; concrete witnesses instantiate `H` with a small
executable function.
-/

namespace NearClaim

/-! Section: Byte buffers, hex rendering, and `Buffer.compare` -/

/-- A byte list is valid when every entry fits in one byte. -/
def allBytes (bs : List Nat) : Prop := ∀ b ∈ bs, b < 256

/-- Model of `Buffer.compare`: lexicographic byte comparison, shorter
prefix first. -/
def bytesCompare : List Nat → List Nat → Ordering
  | [], [] => .eq
  | [], _ :: _ => .lt
  | _ :: _, [] => .gt
  | a :: as, b :: bs =>
    if a < b then .lt else if b < a then .gt else bytesCompare as bs

/-- Model of `x.compare(y) <= 0` on buffers. -/
def bytesLe (a b : List Nat) : Bool :=
  match bytesCompare a b with
  | .gt => false
  | _ => true

/-- Sorted-pair concatenation used before hashing each internal node. -/
def sortPair (l r : List Nat) : List Nat :=
  if bytesLe l r then l ++ r else r ++ l

/-- Hex digit for a value below 16 (lower case, as `toString('hex')`). -/
def hexDigitChar (n : Nat) : Char :=
  if n < 10 then Char.ofNat (48 + n) else Char.ofNat (87 + n)

/-- Hex character sequence of a byte list (`buf.toString('hex')`). -/
def hexChars (bs : List Nat) : List Char :=
  bs.flatMap (fun b => [hexDigitChar (b / 16), hexDigitChar (b % 16)])

/-- Model of `'0x' + buf.toString('hex')`. -/
def mkHex (bs : List Nat) : String :=
  String.mk ('0' :: 'x' :: hexChars bs)

/-- Value of one hex character. -/
def hexVal (c : Char) : Nat :=
  if 97 ≤ c.toNat then c.toNat - 87 else c.toNat - 48

/-- Decode hex character pairs into bytes (`Buffer.from(_, 'hex')`). -/
def hexPairs : List Char → List Nat
  | c1 :: c2 :: rest => (hexVal c1 * 16 + hexVal c2) :: hexPairs rest
  | _ => []

/-- Model of `Buffer.from(s.substring(2), 'hex')`. -/
def decHex (s : String) : List Nat := hexPairs (s.data.drop 2)

theorem bytesCompare_eq_iff : ∀ {a b : List Nat}, bytesCompare a b = .eq ↔ a = b := by
  intro a
  induction a with
  | nil => intro b; cases b <;> simp [bytesCompare]
  | cons x xs ih =>
    intro b
    cases b with
    | nil => simp [bytesCompare]
    | cons y ys =>
      simp only [bytesCompare]
      by_cases h1 : x < y
      · simp [h1]; omega
      · by_cases h2 : y < x
        · simp [h1, h2]; omega
        · have hxy : x = y := by omega
          simp [h1, h2, hxy, ih]

theorem bytesCompare_gt_iff_lt : ∀ {a b : List Nat},
    bytesCompare a b = .gt ↔ bytesCompare b a = .lt := by
  intro a
  induction a with
  | nil => intro b; cases b <;> simp [bytesCompare]
  | cons x xs ih =>
    intro b
    cases b with
    | nil => simp [bytesCompare]
    | cons y ys =>
      simp only [bytesCompare]
      by_cases h1 : x < y
      · have h2 : ¬ y < x := by omega
        simp [h1, h2]
      · by_cases h2 : y < x
        · simp [h1, h2]
        · simp [h1, h2, ih]

theorem bytesLe_total (a b : List Nat) : bytesLe a b = true ∨ bytesLe b a = true := by
  unfold bytesLe
  rcases h : bytesCompare a b with _ | _ | _
  · left; rfl
  · left; rfl
  · right
    have := bytesCompare_gt_iff_lt.mp h
    rw [this]

theorem bytesLe_antisymm {a b : List Nat} (h1 : bytesLe a b = true)
    (h2 : bytesLe b a = true) : a = b := by
  unfold bytesLe at h1 h2
  rcases h : bytesCompare a b with _ | _ | _
  · exfalso
    have := bytesCompare_gt_iff_lt.mpr h
    rw [this] at h2
    simp at h2
  · exact bytesCompare_eq_iff.mp h
  · rw [h] at h1; simp at h1

theorem bytesCompare_lt_trans : ∀ {a b c : List Nat},
    bytesCompare a b = .lt → bytesCompare b c = .lt → bytesCompare a c = .lt := by
  intro a
  induction a with
  | nil =>
    intro b c hab hbc
    cases b with
    | nil => simpa [bytesCompare] using hbc
    | cons y ys =>
      cases c with
      | nil => simp [bytesCompare] at hbc
      | cons z zs => simp [bytesCompare]
  | cons x xs ih =>
    intro b c hab hbc
    cases b with
    | nil => simp [bytesCompare] at hab
    | cons y ys =>
      cases c with
      | nil => simp [bytesCompare] at hbc
      | cons z zs =>
        simp only [bytesCompare] at hab hbc ⊢
        by_cases hxy : x < y
        · by_cases hyz : y < z
          · have : x < z := by omega
            simp [this]
          · by_cases hzy : z < y
            · simp [hxy, hyz, hzy] at hbc
            · have hyz' : y = z := by omega
              subst hyz'
              simp [hxy]
        · by_cases hyx : y < x
          · simp [hxy, hyx] at hab
          · have hxy' : x = y := by omega
            subst hxy'
            simp only [hxy, if_neg (lt_irrefl x)] at hab
            simp at hab
            by_cases hyz : x < z
            · simp [hyz]
            · by_cases hzy : z < x
              · simp [hyz, hzy] at hbc
              · have : x = z := by omega
                subst this
                simp only [if_neg (lt_irrefl x)] at hbc ⊢
                exact ih hab hbc

theorem bytesLe_trans {a b c : List Nat} (h1 : bytesLe a b = true)
    (h2 : bytesLe b c = true) : bytesLe a c = true := by
  unfold bytesLe at h1 h2 ⊢
  rcases hab : bytesCompare a b with _ | _ | _
  · rcases hbc : bytesCompare b c with _ | _ | _
    · rw [bytesCompare_lt_trans hab hbc]
    · have := bytesCompare_eq_iff.mp hbc; subst this; rw [hab]
    · rw [hbc] at h2; simp at h2
  · have := bytesCompare_eq_iff.mp hab; subst this; exact h2
  · rw [hab] at h1; simp at h1

theorem sortPair_comm (a b : List Nat) : sortPair a b = sortPair b a := by
  unfold sortPair
  by_cases h1 : bytesLe a b = true
  · by_cases h2 : bytesLe b a = true
    · have := bytesLe_antisymm h1 h2
      subst this
      simp
    · simp [h1, h2]
  · by_cases h2 : bytesLe b a = true
    · simp [h1, h2]
    · rcases bytesLe_total a b with h | h
      · exact absurd h h1
      · exact absurd h h2

theorem hexVal_hexDigitChar : ∀ d, d < 16 → hexVal (hexDigitChar d) = d := by decide

theorem hexPairs_hexChars {bs : List Nat} (h : allBytes bs) :
    hexPairs (hexChars bs) = bs := by
  induction bs with
  | nil => rfl
  | cons b rest ih =>
    have hb : b < 256 := h b (List.mem_cons_self _ _)
    have hrest : allBytes rest := fun x hx => h x (List.mem_cons_of_mem _ hx)
    have hdiv : b / 16 < 16 := by omega
    have hmod : b % 16 < 16 := by omega
    simp only [hexChars, List.flatMap_cons] at *
    simp only [hexPairs, List.cons_append, List.nil_append]
    rw [hexVal_hexDigitChar _ hdiv, hexVal_hexDigitChar _ hmod]
    rw [show ∀ x : List Char, [].append x = x from fun _ => rfl, ih hrest]
    congr 1
    omega

theorem decHex_mkHex {bs : List Nat} (h : allBytes bs) : decHex (mkHex bs) = bs := by
  unfold decHex mkHex
  show hexPairs (List.drop 2 ('0' :: 'x' :: hexChars bs)) = bs
  simp only [List.drop_succ_cons, List.drop_zero]
  exact hexPairs_hexChars h

/-! Section: Value normalization (`convertValue`) -/

/-- Model of `s.toLowerCase()` (exact on the ASCII range). -/
def jsToLower (s : String) : String := String.mk (s.data.map Char.toLower)

/-- Model of `s.includes(c)` for a single character. -/
def containsChar (s : String) (c : Char) : Bool := s.data.contains c

/-- Model of `s.startsWith('0x')`. -/
def startsWith0x (s : String) : Bool :=
  match s.data with
  | '0' :: 'x' :: _ => true
  | _ => false

/-- Model of `s.substring(2)`. -/
def dropTwo (s : String) : String := String.mk (s.data.drop 2)

/-- Model of the `HEX_64_CHAR` regex test `^[a-f0-9]{64}$`. -/
def isHex64 (s : String) : Bool :=
  s.data.length == 64 && s.data.all (fun c => c.isDigit || ('a' ≤ c && c ≤ 'f'))

/-- Model of `s.padStart(n, c)`. -/
def padStart (s : String) (n : Nat) (c : Char) : String :=
  if n ≤ s.data.length then s else String.mk (List.replicate (n - s.data.length) c ++ s.data)

/-- Continuation of the `AMOUNT_VALIDATION` regex after the optional dot:
accepts `\d*`. -/
def fracOk : List Char → Bool
  | [] => true
  | c :: cs => c.isDigit && fracOk cs

/-- Continuation of the `AMOUNT_VALIDATION` regex after at least one digit:
accepts `\d*(\.\d*)?`. -/
def intFracOk : List Char → Bool
  | [] => true
  | c :: cs => if c = '.' then fracOk cs else c.isDigit && intFracOk cs

/-- Model of the `AMOUNT_VALIDATION` regex test `^\d+(\.\d*)?$`. -/
def amountValid (s : String) : Bool :=
  match s.data with
  | [] => false
  | c :: cs => c.isDigit && intFracOk cs

/-- Characters of a string up to (excluding) the first dot; models
`amount.split('.')[0]`. -/
def intPartChars : List Char → List Char
  | [] => []
  | c :: cs => if c = '.' then [] else c :: intPartChars cs

/-- Model of destructuring `const [integerPart] = amount.split('.')`. -/
def intPart (s : String) : String := String.mk (intPartChars s.data)

/-- Model of `new BN(str, 10)` on a decimal-digit string. -/
def parseDec (s : String) : Nat :=
  s.data.foldl (fun n c => 10 * n + (c.toNat - 48)) 0

/-- Decimal digit character of a value below 10. -/
def digitChar (n : Nat) : Char := Char.ofNat (48 + n)

/-- Little-endian decimal digit list of a natural number, with explicit
fuel so the definition is structurally recursive. -/
def natDigitsRevAux : Nat → Nat → List Char
  | 0, _ => []
  | fuel + 1, n =>
    if n < 10 then [digitChar n] else digitChar (n % 10) :: natDigitsRevAux fuel (n / 10)

/-- Little-endian decimal digit list of a natural number. -/
def natDigitsRev (n : Nat) : List Char := natDigitsRevAux (n + 1) n

/-- Model of `BN.prototype.toString()`: canonical decimal rendering. -/
def decRepr (n : Nat) : String := String.mk (natDigitsRev n).reverse

/-- The spec's regex `^\d+(\.\d*)?$` as a declarative property: a non-empty
digit run, optionally followed by a dot and another (possibly empty) digit
run. -/
def AmountRe (s : String) : Prop :=
  ∃ ip fp : List Char,
    (s.data = ip ∨ s.data = ip ++ '.' :: fp) ∧ ip ≠ [] ∧
      (∀ c ∈ ip, c.isDigit) ∧ (∀ c ∈ fp, c.isDigit)

/-- The identifier-normalization pipeline shared by the tuple form's address
and the record form's lockup: lower-case; when the result neither contains a
dot nor is already 64 hex characters, strip an optional `0x` prefix and
left-pad with `0` to 64 characters. -/
def normalizeId (x : String) : String :=
  let f := jsToLower x
  if containsChar f '.' || isHex64 f then f
  else padStart (if startsWith0x f then dropTwo f else f) 64 '0'

/-- Model of `NearMerkleTree.convertValue` from the tuple-form variant
(`merkle-tree.ts`): normalize the address, validate and canonicalize the
amount. -/
def convertValue (value : String × String) : Except String (String × String) :=
  let address := value.1
  let amount := value.2
  let formattedAddress := normalizeId address
  if amountValid amount = false then
    .error ("Invalid amount format: " ++ amount)
  else
    .ok (formattedAddress, decRepr (parseDec (intPart amount)))

/-- Record shape of the byte-array variant (`MerkleTreeData`). -/
structure MerkleTreeData where
  account : String
  lockup : String
  amount : String
deriving DecidableEq

/-- Model of `NearMerkleTree.convertValue` from the record-form variant: the
account is lower-cased only, the lockup goes through the full identifier
pipeline, and the amount is validated and canonicalized. -/
def convertValueRec (value : MerkleTreeData) : Except String MerkleTreeData :=
  let formattedAccount := jsToLower value.account
  let formattedLockup := normalizeId value.lockup
  if amountValid value.amount = false then
    .error ("Invalid amount format: " ++ value.amount)
  else
    .ok ⟨formattedAccount, formattedLockup, decRepr (parseDec (intPart value.amount))⟩

/-! Section: Leaf encoding (`encodeValue`) -/

/-- UTF-8 encoding of one character. -/
def utf8EncodeChar (c : Char) : List Nat :=
  let n := c.toNat
  if n < 128 then [n]
  else if n < 2048 then [192 + n / 64, 128 + n % 64]
  else if n < 65536 then [224 + n / 4096, 128 + n / 64 % 64, 128 + n % 64]
  else [240 + n / 262144, 128 + n / 4096 % 64, 128 + n / 64 % 64, 128 + n % 64]

/-- Model of `Buffer.from(str, 'utf8')`. -/
def utf8Bytes (s : String) : List Nat := s.data.flatMap utf8EncodeChar

/-- Model of `buf.writeUInt32LE(n)` into a 4-byte buffer. -/
def leU32 (n : Nat) : List Nat :=
  [n % 256, n / 256 % 256, n / 65536 % 256, n / 16777216 % 256]

/-- Model of `BN.toArray('le', 16)` padded to 16 bytes. -/
def le16 (a : Nat) : List Nat := (List.range 16).map (fun i => a / 256 ^ i % 256)

/-- Model of `NearMerkleTree.encodeValue` (tuple form): 4-byte little-endian
length prefix, UTF-8 address bytes, 16-byte little-endian amount.  `BN`
raises when the amount does not fit in 16 bytes. -/
def encodeValue (value : String × String) : Except String (List Nat) :=
  let accountBytes := utf8Bytes value.1
  let accountLength := leU32 accountBytes.length
  let amount := parseDec value.2
  if amount < 2 ^ 128 then
    .ok (accountLength ++ accountBytes ++ le16 amount)
  else
    .error "byte array longer than desired length"

/-- Model of `NearMerkleTree.encodeBorshValue` (record form). -/
def encodeBorshValue (value : MerkleTreeData) : Except String (List Nat) :=
  let accountBytes := utf8Bytes value.account
  let lockupBytes := utf8Bytes value.lockup
  let amount := parseDec value.amount
  if amount < 2 ^ 128 then
    .ok (leU32 accountBytes.length ++ accountBytes ++
         leU32 lockupBytes.length ++ lockupBytes ++ le16 amount)
  else
    .error "byte array longer than desired length"

/-! Section: Tree construction (`NearMerkleTree.of`), tuple-form variant -/

/-- A `MerkleValue` entry: original record plus its leaf slot. -/
structure MerkleValue where
  value : String × String
  treeIndex : Nat
deriving DecidableEq

/-- The in-memory tree: hex-digest node array, per-record entries, and the
leaf-encoding descriptor. -/
structure NearMerkleTree where
  tree : List String
  values : List MerkleValue
  leafEncoding : List String
deriving DecidableEq

/-- The serialized tree form. -/
structure MerkleTreeDump where
  format : String
  tree : List String
  values : List MerkleValue
  leafEncoding : List String
deriving DecidableEq

/-- One leaf triple `(originalIndex, leafHash, value)` as pushed by the
leaf-hashing loop. -/
abbrev LeafTriple := Nat × List Nat × (String × String)

/-- The leaf digest of one record: hash of the encoded normalized value
(lines 60–65 of the builder). -/
def leafDigest (H : List Nat → List Nat) (v : String × String) :
    Except String (List Nat) := do
  let convertedValue ← convertValue v
  let encoded ← encodeValue convertedValue
  .ok (H encoded)

/-- The leaf-hashing loop: builds `(originalIndex, leafHash, value)` triples
in input order, aborting at the first record that fails conversion or
encoding. -/
def leavesAux (H : List Nat → List Nat) (i : Nat) :
    List (String × String) → Except String (List LeafTriple)
  | [] => .ok []
  | v :: vs => do
    let d ← leafDigest H v
    let rest ← leavesAux H (i + 1) vs
    .ok ((i, d, v) :: rest)

/-- The comparator `(a, b) => a[1].compare(b[1]) <= 0` on leaf triples. -/
def leafLe (a b : LeafTriple) : Prop := bytesLe a.2.1 b.2.1 = true

instance : DecidableRel leafLe := fun a b => instDecidableEqBool (bytesLe a.2.1 b.2.1) true

instance : IsTotal LeafTriple leafLe := ⟨fun a b => bytesLe_total a.2.1 b.2.1⟩

instance : IsTrans LeafTriple leafLe := ⟨fun _ _ _ => bytesLe_trans⟩

/-- Model of `leaves.sort((a, b) => a[1].compare(b[1]))`: a stable sort by
digest bytes (a stable sort's output is unique, so any stable sorting
algorithm is an exact model of the runtime's). -/
def sortLeaves (ls : List LeafTriple) : List LeafTriple :=
  ls.insertionSort leafLe

/-- Functional array update; out-of-range writes leave the list unchanged
(never exercised by the builder). -/
def setAt : List String → Nat → String → List String
  | [], _, _ => []
  | _ :: rest, 0, v => v :: rest
  | a :: rest, n + 1, v => a :: setAt rest n v

/-- The leaf-placement loop: the `i`-th element of `hs` goes to slot
`tree.length - 1 - i`, counting from running index `j`. -/
def placeFrom (t : List String) (j : Nat) : List String → List String
  | [] => t
  | h :: hs => placeFrom (setAt t (t.length - 1 - j) h) (j + 1) hs

/-- The `origToTreePos` map built during leaf placement: original index to
`treeSize - 1 - sortedPosition`. -/
def posMapAux (treeSize : Nat) (j : Nat) : List LeafTriple → List (Nat × Nat)
  | [] => []
  | leaf :: rest => (leaf.1, treeSize - 1 - j) :: posMapAux treeSize (j + 1) rest

/-- One iteration of the internal-node loop: hash the sorted pair of the two
children of node `i`, duplicating the left child when the right index is out
of bounds. -/
def setNode (H : List Nat → List Nat) (t : List String) (i : Nat) : List String :=
  let leftIdx := 2 * i + 1
  let rightIdx := 2 * i + 2
  let leftHash := decHex (t.getD leftIdx "")
  let rightHash := if rightIdx < t.length then decHex (t.getD rightIdx "") else leftHash
  setAt t i (mkHex (H (sortPair leftHash rightHash)))

/-- The internal-node loop, processing indices `i, i-1, …, 0`. -/
def buildNodes (H : List Nat → List Nat) (t : List String) : Nat → List String
  | 0 => setNode H t 0
  | i + 1 => buildNodes H (setNode H t (i + 1)) i

/-- Everything `NearMerkleTree.of` does after the leaf triples exist: sort,
place leaves backward from the end, record positions, index values in
original order, and fold internal nodes. -/
def assemble (H : List Nat → List Nat) (values : List (String × String))
    (leafEncoding : List String) (ls : List LeafTriple) : NearMerkleTree :=
  let sortedLeaves := sortLeaves ls
  let treeSize := 2 * ls.length - 1
  let base := List.replicate treeSize ""
  let t1 := placeFrom base 0 (sortedLeaves.map (fun leaf => mkHex leaf.2.1))
  let posMap := posMapAux treeSize 0 sortedLeaves
  let indexedValues := (List.range values.length).map (fun i =>
    { value := values.getD i ("", ""), treeIndex := (List.lookup i posMap).getD 0 })
  let tree := if ls.length ≤ 1 then t1 else buildNodes H t1 (ls.length - 2)
  ⟨tree, indexedValues, leafEncoding⟩

/-- Model of `NearMerkleTree.of`.  An empty input raises (`new Array(-1)`
is a `RangeError`); a record failing conversion or encoding aborts the
whole build. -/
def ofTree (H : List Nat → List Nat) (values : List (String × String))
    (leafEncoding : List String) : Except String NearMerkleTree :=
  if values.length = 0 then .error "Invalid array length"
  else
    match leavesAux H 0 values with
    | .error e => .error e
    | .ok ls => .ok (assemble H values leafEncoding ls)

/-! Section: Proof generation and verification -/

/-- The `getProofUnsafe` climb with explicit fuel (the fuel only makes the
recursion structural; it never runs out when it starts at the index). -/
def getProofAux (tree : List String) : Nat → Nat → List String
  | 0, _ => []
  | _ + 1, 0 => []
  | fuel + 1, index =>
    let siblingIndex := if index % 2 = 0 then index - 1 else index + 1
    (if siblingIndex < tree.length then [tree.getD siblingIndex ""] else []) ++
      getProofAux tree fuel ((index - 1) / 2)

/-- Model of `getProofUnsafe`: climb from `index` to the root, collecting
each in-bounds sibling digest. -/
def getProofUnsafe (tree : List String) (index : Nat) : List String :=
  getProofAux tree index index

/-- Model of `getProof`: bounds-checked proof generation. -/
def getProof (t : NearMerkleTree) (index : Nat) : Except String (List String) :=
  if index < t.tree.length then .ok (getProofUnsafe t.tree index)
  else .error "Index out of range"

/-- Model of `verify`: re-derive the leaf digest from the raw record and
fold it upward through the proof, sorting each pair, then compare with the
digest at `tree[0]`. -/
def verify (H : List Nat → List Nat) (t : NearMerkleTree) (proof : List String)
    (leafValue : String × String) : Except String Bool := do
  let convertedValue ← convertValue leafValue
  let encoded ← encodeValue convertedValue
  let current := proof.foldl
    (fun current sibling => H (sortPair current (decHex sibling))) (H encoded)
  .ok (current == decHex (t.tree.getD 0 ""))

/-- Model of `getRoot` (tuple form): the string at `tree[0]`. -/
def getRoot (t : NearMerkleTree) : String := t.tree.getD 0 ""

/-- Model of `dump`. -/
def dump (t : NearMerkleTree) : MerkleTreeDump :=
  ⟨"near-v1", t.tree, t.values, t.leafEncoding⟩

/-- Model of `NearMerkleTree.load`: rejects an unexpected format tag.  In
the typed model the `leafEncoding` field is always present, so the
`!data.leafEncoding` guard never fires. -/
def load (data : MerkleTreeDump) : Except String NearMerkleTree :=
  if data.format ≠ "near-v1" then .error ("Unknown format " ++ data.format)
  else .ok ⟨data.tree, data.values, data.leafEncoding⟩

/-! Section: Byte-array variant (record form): root rendering and load -/

/-- A `MerkleValue` of the record-form variant. -/
structure MerkleValueB where
  value : MerkleTreeData
  treeIndex : Nat
deriving DecidableEq

/-- The record-form tree stores nodes as byte arrays (`number[][]`). -/
structure TreeB where
  tree : List (List Nat)
  values : List MerkleValueB
  leafEncoding : List String
deriving DecidableEq

/-- Serialized form of the record-form tree. -/
structure TreeDumpB where
  format : String
  tree : List (List Nat)
  values : List MerkleValueB
  leafEncoding : List String
deriving DecidableEq

/-- Model of `JSON.stringify` on a number array. -/
def jsonNumberArray (bytes : List Nat) : String :=
  "[" ++ String.intercalate "," (bytes.map decRepr) ++ "]"

/-- Model of the record-form `getRoot`: `JSON.stringify(this.tree[0])`. -/
def getRootB (t : TreeB) : String := jsonNumberArray (t.tree.getD 0 [])

/-- Model of the record-form `load`. -/
def loadB (data : TreeDumpB) : Except String TreeB :=
  if data.format ≠ "near-v1" then .error ("Unknown format " ++ data.format)
  else .ok ⟨data.tree, data.values, data.leafEncoding⟩

/-! Section: Spec-side definitions and a concrete hash instance -/

/-- Modelled from the spec: `LeafDigest = doubleHash(encode(NormalizedValue))`,
the 256-bit hash applied twice. -/
def doubleHashSpec (H : List Nat → List Nat) (bs : List Nat) : List Nat := H (H bs)

/-- Modelled from the spec: a proof with one sibling digest per level,
never skipping an out-of-bounds sibling. -/
def getProofNoSkip (tree : List String) (index : Nat) : List String :=
  if index = 0 then []
  else
    let siblingIndex := if index % 2 = 0 then index - 1 else index + 1
    tree.getD siblingIndex "" :: getProofNoSkip tree ((index - 1) / 2)
termination_by index
decreasing_by
  omega

/-- Depth of a node of the implicit binary-heap array: number of parent
steps from `index` down to the root at 0. -/
def depth (index : Nat) : Nat :=
  if index = 0 then 0 else depth ((index - 1) / 2) + 1
termination_by index
decreasing_by
  omega

/-- Hypothesis on the hash model: outputs are byte lists. -/
def HBytes (H : List Nat → List Nat) : Prop := ∀ bs, allBytes (H bs)

/-- A small executable stand-in for the 256-bit hash, used by concrete
witnesses: 31 zero bytes followed by a checksum byte. -/
def cHash (bs : List Nat) : List Nat :=
  List.replicate 31 0 ++ [(bs.foldl (· + ·) 0 + bs.length) % 256]

theorem cHash_bytes : HBytes cHash := by
  intro bs b hb
  unfold cHash at hb
  rcases List.mem_append.mp hb with h | h
  · have := List.eq_of_mem_replicate h
    omega
  · simp only [List.mem_singleton] at h
    subst h
    exact Nat.mod_lt _ (by omega)

theorem cHash_length (bs : List Nat) : (cHash bs).length = 32 := by
  simp [cHash]

/-! Section: Structural lemmas about the builder loops -/

theorem setAt_length : ∀ (t : List String) (i : Nat) (v : String),
    (setAt t i v).length = t.length := by
  intro t
  induction t with
  | nil => intro i v; cases i <;> rfl
  | cons a rest ih =>
    intro i v
    cases i with
    | zero => rfl
    | succ n => simp [setAt, ih]

theorem getD_setAt_eq {t : List String} {i : Nat} (v : String) (h : i < t.length) :
    (setAt t i v).getD i "" = v := by
  induction t generalizing i with
  | nil => simp at h
  | cons a rest ih =>
    cases i with
    | zero => rfl
    | succ n =>
      simp only [setAt, List.getD_cons_succ]
      exact ih (by simpa using h)

theorem getD_setAt_ne {t : List String} {i k : Nat} (v : String) (h : k ≠ i) :
    (setAt t i v).getD k "" = t.getD k "" := by
  induction t generalizing i k with
  | nil => cases i <;> rfl
  | cons a rest ih =>
    cases i with
    | zero =>
      cases k with
      | zero => exact absurd rfl h
      | succ m => rfl
    | succ n =>
      cases k with
      | zero => rfl
      | succ m =>
        simp only [setAt, List.getD_cons_succ]
        exact ih (fun hc => h (by omega))

theorem placeFrom_length : ∀ (hs : List String) (t : List String) (j : Nat),
    (placeFrom t j hs).length = t.length := by
  intro hs
  induction hs with
  | nil => intro t j; rfl
  | cons h rest ih =>
    intro t j
    simp [placeFrom, ih, setAt_length]

theorem placeFrom_getD : ∀ (hs : List String) (t : List String) (j k : Nat),
    j + hs.length ≤ t.length → k < t.length →
    (placeFrom t j hs).getD k "" =
      if j ≤ t.length - 1 - k ∧ t.length - 1 - k < j + hs.length then
        hs.getD (t.length - 1 - k - j) ""
      else t.getD k "" := by
  intro hs
  induction hs with
  | nil =>
    intro t j k _ _
    simp only [placeFrom, List.length_nil]
    rw [if_neg]
    omega
  | cons h rest ih =>
    intro t j k hle hk
    simp only [placeFrom]
    have hlen : (setAt t (t.length - 1 - j) h).length = t.length := setAt_length t _ h
    have hle' : j + 1 + rest.length ≤ (setAt t (t.length - 1 - j) h).length := by
      simp only [hlen]
      simp only [List.length_cons] at hle
      omega
    have hk' : k < (setAt t (t.length - 1 - j) h).length := by omega
    rw [ih _ (j + 1) k hle' hk']
    simp only [hlen]
    by_cases hmain : j + 1 ≤ t.length - 1 - k ∧ t.length - 1 - k < j + 1 + rest.length
    · rw [if_pos hmain, if_pos (by simp only [List.length_cons]; omega)]
      have : t.length - 1 - k - j = (t.length - 1 - k - (j + 1)) + 1 := by omega
      rw [this, List.getD_cons_succ]
    · rw [if_neg hmain]
      by_cases heq : k = t.length - 1 - j
      · have hjk : t.length - 1 - k = j := by
          simp only [List.length_cons] at hle
          omega
        rw [if_pos (by simp only [List.length_cons]; omega)]
        rw [hjk]
        simp only [Nat.sub_self, List.getD_cons_zero]
        rw [heq]
        exact getD_setAt_eq h (by simp only [List.length_cons] at hle; omega)
      · rw [if_neg (by
          simp only [List.length_cons]
          intro hcon
          rcases hcon with ⟨h1, h2⟩
          rcases Nat.lt_or_ge (t.length - 1 - k) (j + 1) with hlt | hge
          · have hjk : t.length - 1 - k = j := by omega
            exact heq (by simp only [List.length_cons] at hle; omega)
          · exact hmain ⟨hge, by omega⟩)]
        exact getD_setAt_ne h heq

theorem setNode_length (H : List Nat → List Nat) (t : List String) (i : Nat) :
    (setNode H t i).length = t.length := by
  simp [setNode, setAt_length]

theorem buildNodes_length (H : List Nat → List Nat) :
    ∀ (j : Nat) (t : List String), (buildNodes H t j).length = t.length := by
  intro j
  induction j with
  | zero => intro t; simp [buildNodes, setNode_length]
  | succ n ih => intro t; simp [buildNodes, ih, setNode_length]

theorem buildNodes_getD_gt (H : List Nat → List Nat) :
    ∀ (j : Nat) (t : List String) (k : Nat), j < k →
    (buildNodes H t j).getD k "" = t.getD k "" := by
  intro j
  induction j with
  | zero =>
    intro t k hk
    simp only [buildNodes, setNode]
    exact getD_setAt_ne _ (by omega)
  | succ n ih =>
    intro t k hk
    simp only [buildNodes]
    rw [ih _ _ (by omega)]
    simp only [setNode]
    exact getD_setAt_ne _ (by omega)

theorem buildNodes_getD_le (H : List Nat → List Nat) :
    ∀ (j : Nat) (t : List String), j < t.length → ∀ i ≤ j,
    (buildNodes H t j).getD i "" =
      mkHex (H (sortPair (decHex ((buildNodes H t j).getD (2 * i + 1) ""))
        (if 2 * i + 2 < t.length then decHex ((buildNodes H t j).getD (2 * i + 2) "")
         else decHex ((buildNodes H t j).getD (2 * i + 1) "")))) := by
  intro j
  induction j with
  | zero =>
    intro t hj i hi
    have hi0 : i = 0 := by omega
    subst hi0
    simp only [buildNodes, setNode]
    rw [getD_setAt_eq _ hj]
    rw [getD_setAt_ne _ (by omega), getD_setAt_ne _ (by omega)]
  | succ n ih =>
    intro t hj i hi
    simp only [buildNodes]
    have hlen : (setNode H t (n + 1)).length = t.length := setNode_length H t _
    rcases Nat.lt_or_ge i (n + 1) with hlt | hge
    · have := ih (setNode H t (n + 1)) (by omega) i (by omega)
      rw [hlen] at this
      exact this
    · have hieq : i = n + 1 := by omega
      subst hieq
      rw [buildNodes_getD_gt H n _ _ (by omega)]
      rw [buildNodes_getD_gt H n _ _ (by omega)]
      by_cases hrb : 2 * (n + 1) + 2 < t.length
      · rw [if_pos hrb, buildNodes_getD_gt H n _ _ (by omega)]
        simp only [setNode]
        rw [getD_setAt_eq _ (by omega)]
        rw [getD_setAt_ne _ (by omega), getD_setAt_ne _ (by omega)]
        rw [if_pos hrb]
      · rw [if_neg hrb]
        simp only [setNode]
        rw [getD_setAt_eq _ (by omega)]
        rw [getD_setAt_ne _ (by omega)]
        rw [if_neg hrb]

theorem leavesAux_length (H : List Nat → List Nat) :
    ∀ (vs : List (String × String)) (i : Nat) (ls : List LeafTriple),
    leavesAux H i vs = .ok ls → ls.length = vs.length := by
  intro vs
  induction vs with
  | nil =>
    intro i ls h
    simp only [leavesAux] at h
    cases h
    rfl
  | cons v rest ih =>
    intro i ls h
    simp only [leavesAux, bind, Except.bind] at h
    cases hd : leafDigest H v with
    | error e => rw [hd] at h; cases h
    | ok d =>
      rw [hd] at h
      cases hr : leavesAux H (i + 1) rest with
      | error e => rw [hr] at h; cases h
      | ok ls' =>
        rw [hr] at h
        cases h
        simp [ih _ _ hr]

theorem leavesAux_getD (H : List Nat → List Nat) :
    ∀ (vs : List (String × String)) (i : Nat) (ls : List LeafTriple),
    leavesAux H i vs = .ok ls → ∀ k < vs.length,
    ∃ d, leafDigest H (vs.getD k ("", "")) = .ok d ∧
      ls.getD k (0, [], ("", "")) = (i + k, d, vs.getD k ("", "")) := by
  intro vs
  induction vs with
  | nil => intro i ls h k hk; simp at hk
  | cons v rest ih =>
    intro i ls h k hk
    simp only [leavesAux, bind, Except.bind] at h
    cases hd : leafDigest H v with
    | error e => rw [hd] at h; cases h
    | ok d =>
      rw [hd] at h
      cases hr : leavesAux H (i + 1) rest with
      | error e => rw [hr] at h; cases h
      | ok ls' =>
        rw [hr] at h
        cases h
        cases k with
        | zero => exact ⟨d, hd, by simp⟩
        | succ m =>
          have := ih (i + 1) ls' hr m (by simpa using hk)
          rcases this with ⟨dm, hdm, hgm⟩
          refine ⟨dm, by simpa using hdm, ?_⟩
          simp only [List.getD_cons_succ]
          rw [hgm]
          congr 1
          omega

/-! Section: Sorting and position-map lemmas -/

theorem sortLeaves_perm (ls : List LeafTriple) : (sortLeaves ls).Perm ls :=
  List.perm_insertionSort leafLe ls

theorem sortLeaves_sorted (ls : List LeafTriple) :
    (sortLeaves ls).Pairwise (fun a b => bytesLe a.2.1 b.2.1 = true) :=
  List.sorted_insertionSort leafLe ls

theorem getD_map_lt {α β : Type} (f : α → β) (l : List α) (i : Nat) (d : β) (d' : α)
    (h : i < l.length) : (l.map f).getD i d = f (l.getD i d') := by
  rw [List.getD_eq_getElem _ _ (by simpa using h), List.getD_eq_getElem _ _ h]
  simp

theorem posMapAux_lookup : ∀ (l : List LeafTriple) (tS j i : Nat),
    i ∈ l.map (fun x => x.1) →
    ∃ k, k < l.length ∧
      List.lookup i (posMapAux tS j l) = some (tS - 1 - (j + k)) ∧
      (l.getD k (0, [], ("", ""))).1 = i := by
  intro l
  induction l with
  | nil => intro tS j i h; simp at h
  | cons leaf rest ih =>
    intro tS j i h
    by_cases heq : i = leaf.1
    · refine ⟨0, by simp, ?_, by simp [heq]⟩
      simp only [posMapAux, List.lookup]
      have hb : (i == leaf.1) = true := by simp [heq]
      rw [hb]
      simp
    · have hmem : i ∈ rest.map (fun x => x.1) := by
        simp only [List.map_cons, List.mem_cons] at h
        tauto
      rcases ih tS (j + 1) i hmem with ⟨k, hk, hlook, hfst⟩
      refine ⟨k + 1, by simpa using Nat.succ_lt_succ hk, ?_, by simpa using hfst⟩
      simp only [posMapAux, List.lookup]
      have hb : (i == leaf.1) = false := by simp [heq]
      rw [hb]
      show List.lookup i (posMapAux tS (j + 1) rest) = some (tS - 1 - (j + (k + 1)))
      rw [hlook]
      congr 1
      omega

theorem posMapAux_map_fst : ∀ (l : List LeafTriple) (tS j : Nat),
    (posMapAux tS j l).map Prod.fst = l.map (fun x => x.1) := by
  intro l
  induction l with
  | nil => intro tS j; rfl
  | cons leaf rest ih => intro tS j; simp [posMapAux, ih]

theorem posMapAux_map_snd : ∀ (l : List LeafTriple) (tS j : Nat),
    (posMapAux tS j l).map Prod.snd = (List.range' j l.length).map (fun x => tS - 1 - x) := by
  intro l
  induction l with
  | nil => intro tS j; rfl
  | cons leaf rest ih =>
    intro tS j
    simp only [posMapAux, List.map_cons, List.length_cons, List.range'_succ, ih]

theorem map_lookupD_keys : ∀ (A : List (Nat × Nat)),
    (A.map Prod.fst).Nodup →
    (A.map Prod.fst).map (fun k => (List.lookup k A).getD 0) = A.map Prod.snd := by
  intro A
  induction A with
  | nil => intro _; rfl
  | cons p rest ih =>
    intro hnd
    obtain ⟨k0, v0⟩ := p
    simp only [List.map_cons, List.nodup_cons] at hnd
    have h1 : (List.lookup k0 ((k0, v0) :: rest)).getD 0 = v0 := by
      simp [List.lookup]
    have h2 : (rest.map Prod.fst).map (fun k => (List.lookup k ((k0, v0) :: rest)).getD 0)
        = rest.map Prod.snd := by
      have hcong : ∀ k ∈ rest.map Prod.fst,
          (fun k => (List.lookup k ((k0, v0) :: rest)).getD 0) k =
            (fun k => (List.lookup k rest).getD 0) k := by
        intro k hk
        simp only [List.lookup]
        have hb : (k == k0) = false := by
          simp only [beq_eq_false_iff_ne, ne_eq]
          intro hc
          exact hnd.1 (hc ▸ hk)
        rw [hb]
      rw [List.map_congr_left hcong]
      exact ih hnd.2
    simp only [List.map_cons, h1, h2]

theorem rangeMapSub : ∀ (n a : Nat),
    (List.range n).map (fun j => a + n - 1 - j) = (List.range' a n).reverse := by
  intro n
  induction n with
  | zero => intro a; rfl
  | succ m ih =>
    intro a
    rw [List.range_succ, List.map_append, List.range'_succ, List.reverse_cons]
    congr 1
    · rw [← ih (a + 1)]
      apply List.map_congr_left
      intro j hj
      omega
    · simp only [List.map_cons, List.map_nil]
      congr 1
      omega

theorem leavesAux_map_fst (H : List Nat → List Nat) :
    ∀ (vs : List (String × String)) (i : Nat) (ls : List LeafTriple),
    leavesAux H i vs = .ok ls → ls.map (fun x => x.1) = List.range' i vs.length := by
  intro vs
  induction vs with
  | nil =>
    intro i ls h
    simp only [leavesAux] at h
    cases h
    rfl
  | cons v rest ih =>
    intro i ls h
    simp only [leavesAux, bind, Except.bind] at h
    cases hd : leafDigest H v with
    | error e => rw [hd] at h; cases h
    | ok d =>
      rw [hd] at h
      cases hr : leavesAux H (i + 1) rest with
      | error e => rw [hr] at h; cases h
      | ok ls' =>
        rw [hr] at h
        cases h
        simp only [List.map_cons, List.length_cons, List.range'_succ]
        rw [ih _ _ hr]

theorem ofTree_ok (H : List Nat → List Nat) (vals : List (String × String))
    (le' : List String) {t : NearMerkleTree} (h : ofTree H vals le' = .ok t) :
    vals.length ≠ 0 ∧ ∃ ls, leavesAux H 0 vals = .ok ls ∧ t = assemble H vals le' ls := by
  unfold ofTree at h
  by_cases h0 : vals.length = 0
  · rw [if_pos h0] at h; cases h
  · rw [if_neg h0] at h
    cases hls : leavesAux H 0 vals with
    | error e => rw [hls] at h; cases h
    | ok ls =>
      rw [hls] at h
      cases h
      exact ⟨h0, ls, rfl, rfl⟩

/-! Section: Characterization of the built tree -/

theorem leafDigest_shape (H : List Nat → List Nat) (v : String × String)
    {d : List Nat} (h : leafDigest H v = .ok d) :
    ∃ c e, convertValue v = .ok c ∧ encodeValue c = .ok e ∧ d = H e := by
  unfold leafDigest at h
  simp only [bind, Except.bind] at h
  cases hc : convertValue v with
  | error e => rw [hc] at h; cases h
  | ok c =>
    rw [hc] at h
    dsimp only at h
    cases he : encodeValue c with
    | error e => rw [he] at h; cases h
    | ok e =>
      rw [he] at h
      cases h
      exact ⟨c, e, rfl, he, rfl⟩

theorem mem_leaves_resolve (H : List Nat → List Nat) (vals : List (String × String))
    {ls : List LeafTriple} (hls : leavesAux H 0 vals = .ok ls)
    {trip : LeafTriple} (hmem : trip ∈ ls) :
    trip.1 < vals.length ∧ trip.2.2 = vals.getD trip.1 ("", "") ∧
      leafDigest H trip.2.2 = .ok trip.2.1 := by
  have hlen := leavesAux_length H vals 0 ls hls
  rcases List.mem_iff_getElem.mp hmem with ⟨n, hn, hget⟩
  have hn' : n < vals.length := by omega
  rcases leavesAux_getD H vals 0 ls hls n hn' with ⟨d, hd, hgd⟩
  rw [List.getD_eq_getElem _ _ hn] at hgd
  rw [hget] at hgd
  subst hgd
  exact ⟨by simpa using hn', by simp, by simpa using hd⟩

theorem ofTree_ok_with (H : List Nat → List Nat) (vals : List (String × String))
    (le' : List String) {t : NearMerkleTree} {ls : List LeafTriple}
    (h : ofTree H vals le' = .ok t) (hls : leavesAux H 0 vals = .ok ls) :
    t = assemble H vals le' ls ∧ ls.length = vals.length ∧ 1 ≤ vals.length := by
  rcases ofTree_ok H vals le' h with ⟨h0, ls', hls', ht⟩
  rw [hls] at hls'
  cases hls'
  exact ⟨ht, leavesAux_length H vals 0 ls hls, by omega⟩

theorem sortLeaves_length (ls : List LeafTriple) : (sortLeaves ls).length = ls.length :=
  (sortLeaves_perm ls).length_eq

theorem assemble_tree_length (H : List Nat → List Nat) (vals : List (String × String))
    (le' : List String) (ls : List LeafTriple) (hlen : ls.length = vals.length)
    (hN : 1 ≤ vals.length) :
    (assemble H vals le' ls).tree.length = 2 * vals.length - 1 := by
  unfold assemble
  by_cases h1 : ls.length ≤ 1
  · simp only [if_pos h1]
    rw [placeFrom_length, List.length_replicate, hlen]
  · simp only [if_neg h1]
    rw [buildNodes_length, placeFrom_length, List.length_replicate, hlen]

theorem assemble_tree_leafSlot (H : List Nat → List Nat) (vals : List (String × String))
    (le' : List String) (ls : List LeafTriple) (hlen : ls.length = vals.length)
    (hN : 1 ≤ vals.length) (k : Nat) (hk1 : vals.length - 1 ≤ k)
    (hk2 : k < 2 * vals.length - 1) :
    (assemble H vals le' ls).tree.getD k "" =
      mkHex ((sortLeaves ls).getD (2 * vals.length - 2 - k) (0, [], ("", ""))).2.1 := by
  have hslen : (sortLeaves ls).length = vals.length := by
    rw [sortLeaves_length, hlen]
  have hmaplen : ((sortLeaves ls).map (fun leaf => mkHex leaf.2.1)).length = vals.length := by
    rw [List.length_map, hslen]
  have hplace :
      (placeFrom (List.replicate (2 * ls.length - 1) "") 0
          ((sortLeaves ls).map (fun leaf => mkHex leaf.2.1))).getD k "" =
        mkHex ((sortLeaves ls).getD (2 * vals.length - 2 - k) (0, [], ("", ""))).2.1 := by
    rw [placeFrom_getD _ _ 0 k
      (by rw [hmaplen, List.length_replicate, hlen]; omega)
      (by rw [List.length_replicate, hlen]; omega)]
    rw [List.length_replicate, hlen]
    rw [if_pos (by constructor <;> [omega; (rw [hmaplen]; omega)])]
    have hidx : 2 * vals.length - 1 - 1 - k - 0 = 2 * vals.length - 2 - k := by omega
    rw [hidx]
    exact getD_map_lt _ _ _ _ (0, [], ("", "")) (by rw [hslen]; omega)
  unfold assemble
  by_cases h1 : ls.length ≤ 1
  · simp only [if_pos h1]
    exact hplace
  · simp only [if_neg h1]
    rw [buildNodes_getD_gt H _ _ _ (by omega)]
    exact hplace

theorem assemble_tree_internal (H : List Nat → List Nat) (vals : List (String × String))
    (le' : List String) (ls : List LeafTriple) (hlen : ls.length = vals.length)
    (i : Nat) (hi : i + 2 ≤ vals.length) :
    (assemble H vals le' ls).tree.getD i "" =
      mkHex (H (sortPair (decHex ((assemble H vals le' ls).tree.getD (2 * i + 1) ""))
        (decHex ((assemble H vals le' ls).tree.getD (2 * i + 2) "")))) := by
  have hN2 : 2 ≤ vals.length := by omega
  have h1 : ¬ ls.length ≤ 1 := by omega
  have hbase : (placeFrom (List.replicate (2 * ls.length - 1) "") 0
      ((sortLeaves ls).map (fun leaf => mkHex leaf.2.1))).length = 2 * vals.length - 1 := by
    rw [placeFrom_length, List.length_replicate, hlen]
  have hassemble : (assemble H vals le' ls).tree =
      buildNodes H (placeFrom (List.replicate (2 * ls.length - 1) "") 0
        ((sortLeaves ls).map (fun leaf => mkHex leaf.2.1))) (ls.length - 2) := by
    simp only [assemble, if_neg h1]
  rw [hassemble]
  have := buildNodes_getD_le H (ls.length - 2)
    (placeFrom (List.replicate (2 * ls.length - 1) "") 0
      ((sortLeaves ls).map (fun leaf => mkHex leaf.2.1)))
    (by rw [hbase]; omega) i (by omega)
  rw [hbase] at this
  rw [if_pos (by omega)] at this
  exact this

theorem assemble_values (H : List Nat → List Nat) (vals : List (String × String))
    (le' : List String) (ls : List LeafTriple) :
    (assemble H vals le' ls).values = (List.range vals.length).map (fun i =>
      { value := vals.getD i ("", ""),
        treeIndex := (List.lookup i (posMapAux (2 * ls.length - 1) 0 (sortLeaves ls))).getD 0 }) := rfl

theorem assemble_leafEncoding (H : List Nat → List Nat) (vals : List (String × String))
    (le' : List String) (ls : List LeafTriple) :
    (assemble H vals le' ls).leafEncoding = le' := rfl

/-! Section: Values, tree indices, and node validity -/

theorem assemble_values_getD (H : List Nat → List Nat) (vals : List (String × String))
    (le' : List String) (ls : List LeafTriple) (k : Nat) (hk : k < vals.length) :
    (assemble H vals le' ls).values.getD k ⟨("", ""), 0⟩ =
      { value := vals.getD k ("", ""),
        treeIndex := (List.lookup k
          (posMapAux (2 * ls.length - 1) 0 (sortLeaves ls))).getD 0 } := by
  rw [assemble_values]
  rw [getD_map_lt _ _ _ _ 0 (by simpa using hk)]
  have hr : (List.range vals.length).getD k 0 = k := by
    rw [List.getD_eq_getElem _ _ (by simpa using hk)]
    simp
  rw [hr]

theorem assemble_values_length (H : List Nat → List Nat) (vals : List (String × String))
    (le' : List String) (ls : List LeafTriple) :
    (assemble H vals le' ls).values.length = vals.length := by
  rw [assemble_values, List.length_map, List.length_range]

theorem sorted_fst_perm (H : List Nat → List Nat) (vals : List (String × String))
    {ls : List LeafTriple} (hls : leavesAux H 0 vals = .ok ls) :
    ((sortLeaves ls).map (fun x => x.1)).Perm (List.range' 0 vals.length) := by
  rw [← leavesAux_map_fst H vals 0 ls hls]
  exact (sortLeaves_perm ls).map _

theorem treeIndex_resolve (H : List Nat → List Nat) (vals : List (String × String))
    {ls : List LeafTriple} (hls : leavesAux H 0 vals = .ok ls) (i : Nat)
    (hi : i < vals.length) :
    ∃ j, j < vals.length ∧
      (List.lookup i (posMapAux (2 * ls.length - 1) 0 (sortLeaves ls))).getD 0 =
        2 * vals.length - 2 - j ∧
      ∃ d, leafDigest H (vals.getD i ("", "")) = .ok d ∧
        (sortLeaves ls).getD j (0, [], ("", "")) = (i, d, vals.getD i ("", "")) := by
  have hlen := leavesAux_length H vals 0 ls hls
  have hslen : (sortLeaves ls).length = vals.length := by rw [sortLeaves_length, hlen]
  have hmem : i ∈ (sortLeaves ls).map (fun x => x.1) := by
    apply (sorted_fst_perm H vals hls).mem_iff.mpr
    exact List.mem_range'_1.mpr ⟨by omega, by omega⟩
  rcases posMapAux_lookup (sortLeaves ls) (2 * ls.length - 1) 0 i hmem with ⟨j, hj, hlook, hfst⟩
  rw [hslen] at hj
  refine ⟨j, hj, ?_, ?_⟩
  · rw [hlook]
    simp only [Option.getD_some]
    omega
  · have htrip : (sortLeaves ls).getD j (0, [], ("", "")) ∈ sortLeaves ls := by
      rw [List.getD_eq_getElem _ _ (by omega)]
      exact List.getElem_mem _
    have htripls : (sortLeaves ls).getD j (0, [], ("", "")) ∈ ls :=
      (sortLeaves_perm ls).subset htrip
    rcases mem_leaves_resolve H vals hls htripls with ⟨h1, h2, h3⟩
    rw [hfst] at h2
    refine ⟨((sortLeaves ls).getD j (0, [], ("", ""))).2.1, by rw [← h2]; exact h3, ?_⟩
    rw [← h2, ← hfst]

theorem assemble_nodeOk (H : List Nat → List Nat) (vals : List (String × String))
    (le' : List String) (ls : List LeafTriple) (hls : leavesAux H 0 vals = .ok ls)
    (hlen : ls.length = vals.length) (hN : 1 ≤ vals.length) (k : Nat)
    (hk : k < 2 * vals.length - 1) :
    ∃ x, (assemble H vals le' ls).tree.getD k "" = mkHex (H x) := by
  have hslen : (sortLeaves ls).length = vals.length := by rw [sortLeaves_length, hlen]
  rcases Nat.lt_or_ge k (vals.length - 1) with hlt | hge
  · have hint := assemble_tree_internal H vals le' ls hlen k (by omega)
    exact ⟨_, hint⟩
  · rw [assemble_tree_leafSlot H vals le' ls hlen hN k hge hk]
    have htrip : (sortLeaves ls).getD (2 * vals.length - 2 - k) (0, [], ("", "")) ∈
        sortLeaves ls := by
      rw [List.getD_eq_getElem _ _ (by omega)]
      exact List.getElem_mem _
    have htripls := (sortLeaves_perm ls).subset htrip
    rcases mem_leaves_resolve H vals hls htripls with ⟨h1, h2, h3⟩
    rcases leafDigest_shape H _ h3 with ⟨c, e, hc, he, hd⟩
    exact ⟨e, by rw [hd]⟩

/-! Section: Proof-path lemmas -/

theorem getProofAux_irrel (t : List String) : ∀ k f1 f2, k ≤ f1 → k ≤ f2 →
    getProofAux t f1 k = getProofAux t f2 k := by
  intro k
  induction k using Nat.strong_induction_on with
  | _ k ih =>
    intro f1 f2 h1 h2
    cases k with
    | zero =>
      cases f1 with
      | zero =>
        cases f2 with
        | zero => rfl
        | succ g2 => rfl
      | succ g1 =>
        cases f2 with
        | zero => rfl
        | succ g2 => rfl
    | succ m =>
      cases f1 with
      | zero => omega
      | succ g1 =>
        cases f2 with
        | zero => omega
        | succ g2 =>
          show _ ++ getProofAux t g1 ((m + 1 - 1) / 2) =
            _ ++ getProofAux t g2 ((m + 1 - 1) / 2)
          congr 1
          exact ih ((m + 1 - 1) / 2) (by omega) g1 g2 (by omega) (by omega)

theorem getProofUnsafe_zero (t : List String) : getProofUnsafe t 0 = [] := rfl

theorem getProofUnsafe_pos (t : List String) (k : Nat) (hk : k ≠ 0) :
    getProofUnsafe t k =
      (if (if k % 2 = 0 then k - 1 else k + 1) < t.length
        then [t.getD (if k % 2 = 0 then k - 1 else k + 1) ""] else []) ++
      getProofUnsafe t ((k - 1) / 2) := by
  cases k with
  | zero => exact absurd rfl hk
  | succ m =>
    show _ ++ getProofAux t m ((m + 1 - 1) / 2) = _ ++ getProofUnsafe t ((m + 1 - 1) / 2)
    congr 1
    exact getProofAux_irrel t ((m + 1 - 1) / 2) m _ (by omega) (by omega)

theorem getProofNoSkip_zero (t : List String) : getProofNoSkip t 0 = [] := by
  rw [getProofNoSkip]
  simp

theorem getProofNoSkip_pos (t : List String) (k : Nat) (hk : k ≠ 0) :
    getProofNoSkip t k =
      t.getD (if k % 2 = 0 then k - 1 else k + 1) "" :: getProofNoSkip t ((k - 1) / 2) := by
  rw [getProofNoSkip]
  rw [if_neg hk]

theorem sibling_lt (N k : Nat) (hN : 1 ≤ N) (hk : k < 2 * N - 1) (hk0 : k ≠ 0) :
    (if k % 2 = 0 then k - 1 else k + 1) < 2 * N - 1 := by
  by_cases hpar : k % 2 = 0
  · rw [if_pos hpar]; omega
  · rw [if_neg hpar]; omega

theorem getProofUnsafe_eq_noSkip (t : List String) (N : Nat) (hN : 1 ≤ N)
    (hlen : t.length = 2 * N - 1) : ∀ k, k < t.length → getProofUnsafe t k = getProofNoSkip t k := by
  intro k
  induction k using Nat.strong_induction_on with
  | _ k ih =>
    intro hk
    by_cases hk0 : k = 0
    · subst hk0
      rw [getProofUnsafe_zero, getProofNoSkip_zero]
    · rw [getProofUnsafe_pos t k hk0, getProofNoSkip_pos t k hk0]
      have hsib : (if k % 2 = 0 then k - 1 else k + 1) < t.length := by
        rw [hlen]
        exact sibling_lt N k hN (by omega) hk0
      rw [if_pos hsib, List.singleton_append]
      congr 1
      exact ih ((k - 1) / 2) (by omega) (by omega)

theorem getProofNoSkip_length (t : List String) : ∀ k, (getProofNoSkip t k).length = depth k := by
  intro k
  induction k using Nat.strong_induction_on with
  | _ k ih =>
    by_cases hk0 : k = 0
    · subst hk0
      rw [getProofNoSkip_zero, depth]
      rfl
    · rw [getProofNoSkip_pos t k hk0, depth, if_neg hk0, List.length_cons]
      rw [ih ((k - 1) / 2) (by omega)]

theorem log2_step (m : Nat) (h : 2 ≤ m) : Nat.log2 m = Nat.log2 (m / 2) + 1 := by
  rw [Nat.log2]
  rw [if_pos h]

theorem depth_eq_log2 : ∀ k, depth k = Nat.log2 (k + 1) := by
  intro k
  induction k using Nat.strong_induction_on with
  | _ k ih =>
    by_cases hk0 : k = 0
    · subst hk0
      rw [depth]
      rw [Nat.log2]
      simp
    · rw [depth, if_neg hk0, ih ((k - 1) / 2) (by omega)]
      rw [log2_step (k + 1) (by omega)]
      congr 2
      omega

theorem log2_of_pow_range : ∀ (d m : Nat), 2 ^ d ≤ m → m < 2 ^ (d + 1) → Nat.log2 m = d := by
  intro d
  induction d with
  | zero =>
    intro m h1 h2
    have h1' : 1 ≤ m := by simpa using h1
    have h2' : m < 2 := by simpa using h2
    have hm : m = 1 := by omega
    subst hm
    rw [Nat.log2]
    simp
  | succ e ih =>
    intro m h1 h2
    have hpos : 1 ≤ 2 ^ e := Nat.one_le_two_pow
    have ha1 : 2 ^ (e + 1) = 2 * 2 ^ e := by rw [Nat.pow_succ]; ring
    have ha2 : 2 ^ (e + 2) = 4 * 2 ^ e := by rw [Nat.pow_succ, Nat.pow_succ]; ring
    rw [ha1] at h1
    rw [show e + 1 + 1 = e + 2 from rfl, ha2] at h2
    rw [log2_step m (by omega)]
    rw [ih (m / 2) (by omega) (by omega)]

theorem foldProof_root (H : List Nat → List Nat) (hH : HBytes H) (t : List String)
    (N : Nat) (hN : 1 ≤ N) (hlen : t.length = 2 * N - 1)
    (hint : ∀ i, i + 2 ≤ N → t.getD i "" =
      mkHex (H (sortPair (decHex (t.getD (2 * i + 1) "")) (decHex (t.getD (2 * i + 2) ""))))) :
    ∀ k, k < t.length →
      (getProofUnsafe t k).foldl (fun cur sib => H (sortPair cur (decHex sib)))
        (decHex (t.getD k "")) = decHex (t.getD 0 "") := by
  intro k
  induction k using Nat.strong_induction_on with
  | _ k ih =>
    intro hk
    by_cases hk0 : k = 0
    · subst hk0
      rw [getProofUnsafe_zero]
      rfl
    · rw [getProofUnsafe_pos t k hk0]
      have hsib : (if k % 2 = 0 then k - 1 else k + 1) < t.length := by
        rw [hlen]
        exact sibling_lt N k hN (by omega) hk0
      rw [if_pos hsib, List.singleton_append, List.foldl_cons]
      have hp2 : (k - 1) / 2 + 2 ≤ N := by omega
      have hpget := hint ((k - 1) / 2) hp2
      have hstep : H (sortPair (decHex (t.getD k ""))
          (decHex (t.getD (if k % 2 = 0 then k - 1 else k + 1) ""))) =
          decHex (t.getD ((k - 1) / 2) "") := by
        rw [hpget, decHex_mkHex (hH _)]
        by_cases hpar : k % 2 = 0
        · rw [if_pos hpar]
          have h1 : 2 * ((k - 1) / 2) + 1 = k - 1 := by omega
          have h2 : 2 * ((k - 1) / 2) + 2 = k := by omega
          rw [h1, h2, sortPair_comm]
        · rw [if_neg hpar]
          have h1 : 2 * ((k - 1) / 2) + 1 = k := by omega
          have h2 : 2 * ((k - 1) / 2) + 2 = k + 1 := by omega
          rw [h1, h2]
      rw [hstep]
      exact ih ((k - 1) / 2) (by omega) (by omega)

/-! Section: Remaining helpers -/

instance {ε α : Type} [DecidableEq ε] [DecidableEq α] : DecidableEq (Except ε α) := by
  intro a b
  cases a <;> cases b
  case error.error e1 e2 =>
    by_cases h : e1 = e2
    · exact isTrue (by rw [h])
    · exact isFalse (by intro hc; cases hc; exact h rfl)
  case error.ok e1 a2 => exact isFalse (by intro hc; cases hc)
  case ok.error a1 e2 => exact isFalse (by intro hc; cases hc)
  case ok.ok a1 a2 =>
    by_cases h : a1 = a2
    · exact isTrue (by rw [h])
    · exact isFalse (by intro hc; cases hc; exact h rfl)

/-- The digest of each leaf triple, as the builder computes it from the
corresponding input record. -/
theorem leavesAux_digest_map (H : List Nat → List Nat) :
    ∀ (vs : List (String × String)) (i : Nat) (ls : List LeafTriple),
    leavesAux H i vs = .ok ls →
    ls.map (fun trip => trip.2.1) =
      vs.map (fun v => (leafDigest H v).toOption.getD []) := by
  intro vs
  induction vs with
  | nil =>
    intro i ls h
    simp only [leavesAux] at h
    cases h
    rfl
  | cons v rest ih =>
    intro i ls h
    simp only [leavesAux, bind, Except.bind] at h
    cases hd : leafDigest H v with
    | error e => rw [hd] at h; cases h
    | ok d =>
      rw [hd] at h
      cases hr : leavesAux H (i + 1) rest with
      | error e => rw [hr] at h; cases h
      | ok ls' =>
        rw [hr] at h
        cases h
        simp only [List.map_cons]
        rw [ih _ _ hr]
        congr 1
        rw [hd]
        rfl

theorem mem_values_resolve (H : List Nat → List Nat) (vals : List (String × String))
    (le' : List String) (ls : List LeafTriple) {mv : MerkleValue}
    (hm : mv ∈ (assemble H vals le' ls).values) :
    ∃ k, k < vals.length ∧ mv =
      { value := vals.getD k ("", ""),
        treeIndex := (List.lookup k
          (posMapAux (2 * ls.length - 1) 0 (sortLeaves ls))).getD 0 } := by
  rw [assemble_values] at hm
  rcases List.mem_map.mp hm with ⟨k, hk, heq⟩
  exact ⟨k, List.mem_range.mp hk, heq.symm⟩

theorem hexChars_length (bs : List Nat) : (hexChars bs).length = 2 * bs.length := by
  induction bs with
  | nil => rfl
  | cons b rest ih =>
    have hstep : hexChars (b :: rest) =
        [hexDigitChar (b / 16), hexDigitChar (b % 16)] ++ hexChars rest := by
      simp [hexChars]
    rw [hstep, List.length_append, ih]
    simp only [List.length_cons, List.length_nil]
    omega

theorem hexChars_mem {bs : List Nat} (hbs : allBytes bs) {c : Char} (h : c ∈ hexChars bs) :
    c.isDigit = true ∨ ('a' ≤ c ∧ c ≤ 'f') := by
  have hdigit : ∀ d, d < 16 → ((hexDigitChar d).isDigit = true ∨
      ('a' ≤ hexDigitChar d ∧ hexDigitChar d ≤ 'f')) := by decide
  unfold hexChars at h
  rcases List.mem_flatMap.mp h with ⟨b, hbmem, hb⟩
  have hblt : b < 256 := hbs b hbmem
  simp only [List.mem_cons, List.mem_singleton] at hb
  rcases hb with h1 | h1 | h1
  · subst h1; exact hdigit _ (by omega)
  · subst h1; exact hdigit _ (by omega)
  · cases h1

theorem string_data_append (s t : String) : (s ++ t).data = s.data ++ t.data := rfl

/-! Section: Concrete inputs used by witnesses -/

set_option maxRecDepth 200000
set_option maxHeartbeats 2000000

/-- Default-extracting accessor for a built tree. -/
def forceTree (e : Except String NearMerkleTree) : NearMerkleTree :=
  e.toOption.getD ⟨[], [], []⟩

/-- Default-extracting accessor for a leaf-triple list. -/
def forceLeaves (e : Except String (List LeafTriple)) : List LeafTriple :=
  e.toOption.getD []

/-- Three sample entitlement records (the spec's concrete scenario). -/
def cVals : List (String × String) :=
  [("alice.near", "100"), ("bob.near", "200"), ("charlie.near", "300")]

/-- The same records in reversed input order. -/
def cValsRev : List (String × String) := cVals.reverse

/-- Two sample records (a power-of-two count). -/
def cVals2 : List (String × String) := [("alice.near", "1"), ("0xAB", "2")]

/-- The leaf-encoding descriptor used by the processor. -/
def cEnc : List String := ["address", "uint256"]

/-- The tree built from the three sample records with the concrete hash. -/
def cTree : NearMerkleTree := forceTree (ofTree cHash cVals cEnc)

/-- The leaf triples of the three sample records. -/
def cLs : List LeafTriple := forceLeaves (leavesAux cHash 0 cVals)

/-- The tree built from the reversed list. -/
def cTreeRev : NearMerkleTree := forceTree (ofTree cHash cValsRev cEnc)

/-- The tree built from the two sample records. -/
def cTree2 : NearMerkleTree := forceTree (ofTree cHash cVals2 cEnc)

/-! Section: Claim theorems -/

/-- Claim C2: for every build from `N ≥ 1` valid records, the node array has
length `2N−1`; the i-th leaf in ascending digest-sorted order is stored at
slot `(2N−1)−1−i`, so the sorted leaves occupy the last `N` slots filling
backward from the end; every internal node at index `i ≤ N−2` equals the
hash of its two children's digests concatenated in ascending byte order; and
the root is at index 0. -/
theorem C2_tree_structure (H : List Nat → List Nat) (vals : List (String × String))
    (le' : List String) (t : NearMerkleTree) (ls : List LeafTriple)
    (h : ofTree H vals le' = .ok t) (hls : leavesAux H 0 vals = .ok ls) :
    t.tree.length = 2 * vals.length - 1 ∧
    (sortLeaves ls).Pairwise (fun a b => bytesLe a.2.1 b.2.1 = true) ∧
    (sortLeaves ls).Perm ls ∧
    (∀ i, i < vals.length →
      t.tree.getD (2 * vals.length - 1 - 1 - i) "" =
        mkHex ((sortLeaves ls).getD i (0, [], ("", ""))).2.1) ∧
    (∀ i, i + 2 ≤ vals.length →
      t.tree.getD i "" =
        mkHex (H (sortPair (decHex (t.tree.getD (2 * i + 1) ""))
          (decHex (t.tree.getD (2 * i + 2) ""))))) ∧
    getRoot t = t.tree.getD 0 "" := by
  rcases ofTree_ok_with H vals le' h hls with ⟨ht, hlen, hN⟩
  subst ht
  refine ⟨assemble_tree_length H vals le' ls hlen hN, sortLeaves_sorted ls,
    sortLeaves_perm ls, ?_, fun i hi => assemble_tree_internal H vals le' ls hlen i hi, rfl⟩
  intro i hi
  have hk1 : vals.length - 1 ≤ 2 * vals.length - 1 - 1 - i := by omega
  have hk2 : 2 * vals.length - 1 - 1 - i < 2 * vals.length - 1 := by omega
  rw [assemble_tree_leafSlot H vals le' ls hlen hN _ hk1 hk2]
  have hidx : 2 * vals.length - 2 - (2 * vals.length - 1 - 1 - i) = i := by omega
  rw [hidx]

/-- Witness for C2 at the three sample records with the concrete hash. -/
theorem C2_tree_structure_witness :
    cTree.tree.length = 2 * cVals.length - 1 ∧
    (sortLeaves cLs).Pairwise (fun a b => bytesLe a.2.1 b.2.1 = true) ∧
    (sortLeaves cLs).Perm cLs ∧
    (∀ i, i < cVals.length →
      cTree.tree.getD (2 * cVals.length - 1 - 1 - i) "" =
        mkHex ((sortLeaves cLs).getD i (0, [], ("", ""))).2.1) ∧
    (∀ i, i + 2 ≤ cVals.length →
      cTree.tree.getD i "" =
        mkHex (cHash (sortPair (decHex (cTree.tree.getD (2 * i + 1) ""))
          (decHex (cTree.tree.getD (2 * i + 2) ""))))) ∧
    getRoot cTree = cTree.tree.getD 0 "" :=
  C2_tree_structure cHash cVals cEnc cTree cLs (by decide) (by decide)

/-- Claim C9: for every build from N valid records, the returned values list
has length N, `values[k].value` equals the k-th input record (original input
order is preserved), and the `treeIndex` fields form a bijection onto the
leaf slots `{N−1, …, 2N−2}` of the node array. -/
theorem C9_values_binding (H : List Nat → List Nat) (vals : List (String × String))
    (le' : List String) (t : NearMerkleTree) (ls : List LeafTriple)
    (h : ofTree H vals le' = .ok t) (hls : leavesAux H 0 vals = .ok ls) :
    t.values.length = vals.length ∧
    (∀ k, k < vals.length →
      (t.values.getD k ⟨("", ""), 0⟩).value = vals.getD k ("", "")) ∧
    (t.values.map (fun mv => mv.treeIndex)).Perm
      (List.range' (vals.length - 1) vals.length) := by
  rcases ofTree_ok_with H vals le' h hls with ⟨ht, hlen, hN⟩
  subst ht
  refine ⟨assemble_values_length H vals le' ls, ?_, ?_⟩
  · intro k hk
    rw [assemble_values_getD H vals le' ls k hk]
  · rw [assemble_values, List.map_map]
    have hslen : (sortLeaves ls).length = vals.length := by rw [sortLeaves_length, hlen]
    have hkeys : (posMapAux (2 * ls.length - 1) 0 (sortLeaves ls)).map Prod.fst =
        (sortLeaves ls).map (fun x => x.1) := posMapAux_map_fst _ _ _
    have hkeysperm : ((posMapAux (2 * ls.length - 1) 0 (sortLeaves ls)).map Prod.fst).Perm
        (List.range vals.length) := by
      rw [hkeys, List.range_eq_range']
      exact sorted_fst_perm H vals hls
    have hnodup : ((posMapAux (2 * ls.length - 1) 0 (sortLeaves ls)).map Prod.fst).Nodup :=
      hkeysperm.symm.nodup (List.nodup_range _)
    have hlookups := map_lookupD_keys _ hnodup
    have hmapperm : ((List.range vals.length).map (fun i =>
        (List.lookup i (posMapAux (2 * ls.length - 1) 0 (sortLeaves ls))).getD 0)).Perm
        ((posMapAux (2 * ls.length - 1) 0 (sortLeaves ls)).map Prod.snd) := by
      rw [← hlookups]
      exact (hkeysperm.symm.map _)
    have hsnd : (posMapAux (2 * ls.length - 1) 0 (sortLeaves ls)).map Prod.snd =
        (List.range' 0 vals.length).map (fun x => 2 * ls.length - 1 - 1 - x) := by
      rw [posMapAux_map_snd, hslen]
    have hsub : ((List.range' 0 vals.length).map (fun x => 2 * ls.length - 1 - 1 - x)) =
        (List.range vals.length).map (fun j => vals.length - 1 + vals.length - 1 - j) := by
      rw [List.range_eq_range']
      apply List.map_congr_left
      intro j hj
      omega
    have hfinal := rangeMapSub vals.length (vals.length - 1)
    refine hmapperm.trans ?_
    rw [hsnd, hsub, hfinal]
    exact List.reverse_perm _

/-- Witness for C9 at the three sample records. -/
theorem C9_values_binding_witness :
    cTree.values.length = cVals.length ∧
    (∀ k, k < cVals.length →
      (cTree.values.getD k ⟨("", ""), 0⟩).value = cVals.getD k ("", "")) ∧
    (cTree.values.map (fun mv => mv.treeIndex)).Perm
      (List.range' (cVals.length - 1) cVals.length) :=
  C9_values_binding cHash cVals cEnc cTree cLs (by decide) (by decide)

/-- Claim C10: in every built tree the absent-right-child fallback and the
out-of-bounds sibling skip are unreachable — in the odd-sized array every
internal node's right child and every non-root node's sibling are in
bounds — so `getProofUnsafe` agrees with the skip-free walk and returns
exactly `depth k` sibling digests for the node at index `k`; for a
power-of-two record count `N = 2^d`, every leaf proof has length `d`. -/
theorem C10_no_fallback (H : List Nat → List Nat) (vals : List (String × String))
    (le' : List String) (t : NearMerkleTree) (h : ofTree H vals le' = .ok t) :
    t.tree.length = 2 * vals.length - 1 ∧
    (∀ i, i + 2 ≤ vals.length → 2 * i + 2 < t.tree.length) ∧
    (∀ k, 0 < k → k < t.tree.length →
      (if k % 2 = 0 then k - 1 else k + 1) < t.tree.length) ∧
    (∀ k, k < t.tree.length →
      getProofUnsafe t.tree k = getProofNoSkip t.tree k ∧
      (getProofUnsafe t.tree k).length = depth k) ∧
    (∀ d, vals.length = 2 ^ d → ∀ k, vals.length - 1 ≤ k → k ≤ 2 * vals.length - 2 →
      (getProofUnsafe t.tree k).length = d) := by
  rcases ofTree_ok H vals le' h with ⟨h0, ls, hls, ht⟩
  have hlen := leavesAux_length H vals 0 ls hls
  have hN : 1 ≤ vals.length := by omega
  have htl : t.tree.length = 2 * vals.length - 1 := by
    rw [ht]
    exact assemble_tree_length H vals le' ls hlen hN
  have hagree : ∀ k, k < t.tree.length → getProofUnsafe t.tree k = getProofNoSkip t.tree k :=
    getProofUnsafe_eq_noSkip t.tree vals.length hN htl
  refine ⟨htl, fun i hi => by omega, fun k hk0 hk => ?_, fun k hk => ?_, fun d hd k hk1 hk2 => ?_⟩
  · rw [htl]
    exact sibling_lt vals.length k hN (by omega) (by omega)
  · refine ⟨hagree k hk, ?_⟩
    rw [hagree k hk]
    exact getProofNoSkip_length t.tree k
  · have hk : k < t.tree.length := by omega
    rw [hagree k hk, getProofNoSkip_length t.tree k, depth_eq_log2]
    apply log2_of_pow_range
    · omega
    · have : 2 ^ (d + 1) = 2 * 2 ^ d := by rw [Nat.pow_succ]; ring
      omega

/-- Witness for C10 at the two sample records (a power-of-two count). -/
theorem C10_no_fallback_witness :
    cTree2.tree.length = 2 * cVals2.length - 1 ∧
    (∀ i, i + 2 ≤ cVals2.length → 2 * i + 2 < cTree2.tree.length) ∧
    (∀ k, 0 < k → k < cTree2.tree.length →
      (if k % 2 = 0 then k - 1 else k + 1) < cTree2.tree.length) ∧
    (∀ k, k < cTree2.tree.length →
      getProofUnsafe cTree2.tree k = getProofNoSkip cTree2.tree k ∧
      (getProofUnsafe cTree2.tree k).length = depth k) ∧
    (∀ d, cVals2.length = 2 ^ d → ∀ k, cVals2.length - 1 ≤ k → k ≤ 2 * cVals2.length - 2 →
      (getProofUnsafe cTree2.tree k).length = d) :=
  C10_no_fallback cHash cVals2 cEnc cTree2 (by decide)

/-- Claim C1: for every tree built by `NearMerkleTree.of` from valid records
and every entry in the tree's values list,
`verify(getProof(entry.treeIndex), entry.value)` returns true against that
tree's own root: walking the re-derived leaf digest upward through the
generated proof, sorting each pair by byte value before hashing, reproduces
`tree[0]` exactly. -/
theorem C1_verify_roundtrip (H : List Nat → List Nat) (hH : HBytes H)
    (vals : List (String × String)) (le' : List String) (t : NearMerkleTree)
    (ls : List LeafTriple) (h : ofTree H vals le' = .ok t)
    (hls : leavesAux H 0 vals = .ok ls) :
    ∀ mv ∈ t.values, ∃ prf, getProof t mv.treeIndex = .ok prf ∧
      verify H t prf mv.value = .ok true := by
  rcases ofTree_ok_with H vals le' h hls with ⟨ht, hlen, hN⟩
  subst ht
  intro mv hmv
  rcases mem_values_resolve H vals le' ls hmv with ⟨k, hk, hmveq⟩
  rcases treeIndex_resolve H vals hls k hk with ⟨j, hj, hlook, d, hd, hsorted⟩
  have hti : mv.treeIndex = 2 * vals.length - 2 - j := by rw [hmveq]; exact hlook
  have hvalue : mv.value = vals.getD k ("", "") := by rw [hmveq]
  have hslot1 : vals.length - 1 ≤ 2 * vals.length - 2 - j := by omega
  have hslot2 : 2 * vals.length - 2 - j < 2 * vals.length - 1 := by omega
  have hleaf := assemble_tree_leafSlot H vals le' ls hlen hN _ hslot1 hslot2
  have hidx : 2 * vals.length - 2 - (2 * vals.length - 2 - j) = j := by omega
  rw [hidx, hsorted] at hleaf
  rcases leafDigest_shape H _ hd with ⟨c, e, hc, he, hde⟩
  have htl := assemble_tree_length H vals le' ls hlen hN
  have hgp : getProof (assemble H vals le' ls) mv.treeIndex =
      .ok (getProofUnsafe (assemble H vals le' ls).tree mv.treeIndex) := by
    unfold getProof
    rw [if_pos (by rw [htl]; omega)]
  refine ⟨_, hgp, ?_⟩
  unfold verify
  simp only [bind, Except.bind]
  rw [hvalue, hc]
  dsimp only
  rw [he]
  dsimp only
  have hfold := foldProof_root H hH (assemble H vals le' ls).tree vals.length hN htl
    (fun i hi => assemble_tree_internal H vals le' ls hlen i hi) mv.treeIndex
    (by rw [htl]; omega)
  have hinit : decHex ((assemble H vals le' ls).tree.getD mv.treeIndex "") = H e := by
    rw [hti, hleaf, decHex_mkHex (by rw [hde]; exact hH e), hde]
  rw [hinit] at hfold
  rw [hfold]
  rw [beq_self_eq_true]

/-- Witness for C1: the first entry of the three-record sample tree has a
proof that verifies against the tree's own root. -/
theorem C1_verify_roundtrip_witness :
    ∃ prf, getProof cTree (cTree.values.getD 0 ⟨("", ""), 0⟩).treeIndex = .ok prf ∧
      verify cHash cTree prf (cTree.values.getD 0 ⟨("", ""), 0⟩).value = .ok true :=
  C1_verify_roundtrip cHash cHash_bytes cVals cEnc cTree cLs (by decide) (by decide)
    (cTree.values.getD 0 ⟨("", ""), 0⟩) (by decide)

/-- Claim C6: for every built tree, `load(dump(T))` succeeds — the emitted
format tag matches the tag `load` expects and `leafEncoding` is present —
and the loaded tree has the same root and returns byte-identical proofs for
every tree index; in particular `load(dump(T)).getRoot() == T.getRoot()`. -/
theorem C6_dump_load_roundtrip (H : List Nat → List Nat)
    (vals : List (String × String)) (le' : List String) (t : NearMerkleTree)
    (h : ofTree H vals le' = .ok t) :
    (dump t).format = "near-v1" ∧
    load (dump t) = .ok t ∧
    (∀ t', load (dump t) = .ok t' →
      getRoot t' = getRoot t ∧ ∀ i, getProof t' i = getProof t i) := by
  have hload : load (dump t) = .ok t := by
    unfold load dump
    rw [if_neg (by simp)]
  refine ⟨rfl, hload, ?_⟩
  intro t' ht'
  rw [hload] at ht'
  cases ht'
  exact ⟨rfl, fun i => rfl⟩

/-- Witness for C6 at the three-record sample tree. -/
theorem C6_dump_load_roundtrip_witness :
    (dump cTree).format = "near-v1" ∧
    load (dump cTree) = .ok cTree ∧
    (∀ t', load (dump cTree) = .ok t' →
      getRoot t' = getRoot cTree ∧ ∀ i, getProof t' i = getProof cTree i) :=
  C6_dump_load_roundtrip cHash cVals cEnc cTree (by decide)

/-! Section: Determinism lemmas -/

theorem leavesAux_all_ok (H : List Nat → List Nat) :
    ∀ (vs : List (String × String)) (i : Nat) (ls : List LeafTriple),
    leavesAux H i vs = .ok ls →
    vs.map (leafDigest H) =
      (vs.map (fun v => (leafDigest H v).toOption.getD [])).map Except.ok := by
  intro vs
  induction vs with
  | nil => intro i ls h; rfl
  | cons v rest ih =>
    intro i ls h
    simp only [leavesAux, bind, Except.bind] at h
    cases hd : leafDigest H v with
    | error e => rw [hd] at h; cases h
    | ok d =>
      rw [hd] at h
      cases hr : leavesAux H (i + 1) rest with
      | error e => rw [hr] at h; cases h
      | ok ls' =>
        simp only [List.map_cons]
        rw [ih _ _ hr, hd]
        rfl

theorem digests_perm (H : List Nat → List Nat) (vals : List (String × String))
    {ls : List LeafTriple} (hls : leavesAux H 0 vals = .ok ls) :
    ((sortLeaves ls).map (fun trip => trip.2.1)).Perm
      (vals.map (fun v => (leafDigest H v).toOption.getD [])) := by
  have h1 : ((sortLeaves ls).map (fun trip => trip.2.1)).Perm
      (ls.map (fun trip => trip.2.1)) := (sortLeaves_perm ls).map _
  rw [leavesAux_digest_map H vals 0 ls hls] at h1
  exact h1

theorem sorted_digests_eq (H : List Nat → List Nat)
    (l1 l2 : List (String × String)) {ls1 ls2 : List LeafTriple}
    (hls1 : leavesAux H 0 l1 = .ok ls1) (hls2 : leavesAux H 0 l2 = .ok ls2)
    (hperm : l1.Perm l2) :
    (sortLeaves ls1).map (fun trip => trip.2.1) =
      (sortLeaves ls2).map (fun trip => trip.2.1) := by
  have antisymm : IsAntisymm (List Nat) (fun a b => bytesLe a b = true) :=
    ⟨fun a b h1 h2 => bytesLe_antisymm h1 h2⟩
  apply @List.eq_of_perm_of_sorted _ (fun a b => bytesLe a b = true) antisymm
  · exact (digests_perm H l1 hls1).trans
      ((hperm.map _).trans (digests_perm H l2 hls2).symm)
  · exact List.Pairwise.map _ (fun a b hab => hab) (sortLeaves_sorted ls1)
  · exact List.Pairwise.map _ (fun a b hab => hab) (sortLeaves_sorted ls2)

theorem assemble_tree_congr (H : List Nat → List Nat)
    (v1 v2 : List (String × String)) (e1 e2 : List String)
    (ls1 ls2 : List LeafTriple) (hlen : ls1.length = ls2.length)
    (hhex : (sortLeaves ls1).map (fun leaf => mkHex leaf.2.1) =
      (sortLeaves ls2).map (fun leaf => mkHex leaf.2.1)) :
    (assemble H v1 e1 ls1).tree = (assemble H v2 e2 ls2).tree := by
  show (if ls1.length ≤ 1 then _ else _) = (if ls2.length ≤ 1 then _ else _)
  rw [hlen, hhex]

/-- Claim C5 (amended): building the tree from the same finite set of valid
records in any input order yields an identical node array, hence an
identical root, unconditionally; and when the records' leaf digests are
pairwise distinct, each record additionally receives an identical tree
index and a byte-identical proof. -/
theorem C5_order_independence (H : List Nat → List Nat)
    (l1 l2 : List (String × String)) (le' : List String)
    (t1 t2 : NearMerkleTree) (ls1 ls2 : List LeafTriple)
    (h1 : ofTree H l1 le' = .ok t1) (h2 : ofTree H l2 le' = .ok t2)
    (hls1 : leavesAux H 0 l1 = .ok ls1) (hls2 : leavesAux H 0 l2 = .ok ls2)
    (hperm : l1.Perm l2) :
    t1.tree = t2.tree ∧ getRoot t1 = getRoot t2 ∧
    ((l1.map (leafDigest H)).Nodup →
      ∀ mv1 ∈ t1.values, ∀ mv2 ∈ t2.values, mv1.value = mv2.value →
        mv1.treeIndex = mv2.treeIndex ∧
        getProof t1 mv1.treeIndex = getProof t2 mv2.treeIndex) := by
  rcases ofTree_ok_with H l1 le' h1 hls1 with ⟨ht1, hlen1, hN1⟩
  rcases ofTree_ok_with H l2 le' h2 hls2 with ⟨ht2, hlen2, hN2⟩
  subst ht1
  subst ht2
  have hNeq : l1.length = l2.length := hperm.length_eq
  have hD := sorted_digests_eq H l1 l2 hls1 hls2 hperm
  have hhex : (sortLeaves ls1).map (fun leaf => mkHex leaf.2.1) =
      (sortLeaves ls2).map (fun leaf => mkHex leaf.2.1) := by
    have e1 : (sortLeaves ls1).map (fun leaf => mkHex leaf.2.1) =
        ((sortLeaves ls1).map (fun trip => trip.2.1)).map mkHex := by
      rw [List.map_map]; rfl
    have e2 : (sortLeaves ls2).map (fun leaf => mkHex leaf.2.1) =
        ((sortLeaves ls2).map (fun trip => trip.2.1)).map mkHex := by
      rw [List.map_map]; rfl
    rw [e1, e2, hD]
  have htree := assemble_tree_congr H l1 l2 le' le' ls1 ls2 (by omega) hhex
  refine ⟨htree, by unfold getRoot; rw [htree], ?_⟩
  intro hnd mv1 hmv1 mv2 hmv2 hveq
  rcases mem_values_resolve H l1 le' ls1 hmv1 with ⟨k1, hk1, hmv1eq⟩
  rcases mem_values_resolve H l2 le' ls2 hmv2 with ⟨k2, hk2, hmv2eq⟩
  rcases treeIndex_resolve H l1 hls1 k1 hk1 with ⟨j1, hj1, hlook1, d1v, hd1, hs1⟩
  rcases treeIndex_resolve H l2 hls2 k2 hk2 with ⟨j2, hj2, hlook2, d2v, hd2, hs2⟩
  have hveq' : l1.getD k1 ("", "") = l2.getD k2 ("", "") := by
    rw [hmv1eq, hmv2eq] at hveq
    exact hveq
  have hdv : d1v = d2v := by
    rw [hveq'] at hd1
    rw [hd1] at hd2
    cases hd2
    rfl
  have hslen1 : (sortLeaves ls1).length = l1.length := by rw [sortLeaves_length, hlen1]
  have hslen2 : (sortLeaves ls2).length = l2.length := by rw [sortLeaves_length, hlen2]
  have hgd1 : ((sortLeaves ls1).map (fun trip => trip.2.1)).getD j1 [] = d1v := by
    rw [getD_map_lt _ _ _ _ (0, [], ("", "")) (by omega), hs1]
  have hgd2 : ((sortLeaves ls2).map (fun trip => trip.2.1)).getD j2 [] = d2v := by
    rw [getD_map_lt _ _ _ _ (0, [], ("", "")) (by omega), hs2]
  rw [← hD] at hgd2
  have hX : (l1.map (fun v => (leafDigest H v).toOption.getD [])).Nodup := by
    rw [leavesAux_all_ok H l1 0 ls1 hls1] at hnd
    exact List.Nodup.of_map _ hnd
  have hnd1 : ((sortLeaves ls1).map (fun trip => trip.2.1)).Nodup :=
    (digests_perm H l1 hls1).symm.nodup hX
  have hlenD : ((sortLeaves ls1).map (fun trip => trip.2.1)).length = l1.length := by
    rw [List.length_map, hslen1]
  have hj1lt : j1 < ((sortLeaves ls1).map (fun trip => trip.2.1)).length := by omega
  have hj2lt : j2 < ((sortLeaves ls1).map (fun trip => trip.2.1)).length := by omega
  have hj12 : j1 = j2 := by
    have hgetel1 : ((sortLeaves ls1).map (fun trip => trip.2.1)).get ⟨j1, hj1lt⟩ = d1v := by
      rw [List.get_eq_getElem, ← List.getD_eq_getElem _ [] hj1lt]
      exact hgd1
    have hgetel2 : ((sortLeaves ls1).map (fun trip => trip.2.1)).get ⟨j2, hj2lt⟩ = d1v := by
      rw [List.get_eq_getElem, ← List.getD_eq_getElem _ [] hj2lt]
      rw [hgd2, hdv]
    have hfin := (List.Nodup.get_inj_iff hnd1).mp (hgetel1.trans hgetel2.symm)
    exact congrArg Fin.val hfin
  have hti : mv1.treeIndex = mv2.treeIndex := by
    rw [hmv1eq, hmv2eq]
    dsimp only
    rw [hlook1, hlook2]
    omega
  refine ⟨hti, ?_⟩
  unfold getProof
  rw [htree, hti]

/-- Four valid records three of which — `("X.near", "5")`, `("x.near",
"5")` and `("x.NEAR", "5")` — are distinct raw records that normalize to
the same value and therefore carry the same leaf digest under any hash. -/
def cTieL1 : List (String × String) :=
  [("a.near", "1"), ("X.near", "5"), ("x.near", "5"), ("x.NEAR", "5")]

/-- The same records with the three tied records cyclically reordered, so
that `("X.near", "5")` moves from the first to the last tie position. -/
def cTieL2 : List (String × String) :=
  [("a.near", "1"), ("x.near", "5"), ("x.NEAR", "5"), ("X.near", "5")]

/-- The tree built from the tied list in its first order. -/
def cTieT1 : NearMerkleTree := forceTree (ofTree cHash cTieL1 cEnc)

/-- The tree built from the tied list in its second order. -/
def cTieT2 : NearMerkleTree := forceTree (ofTree cHash cTieL2 cEnc)

/-- Counterexample for C5 as stated: over the set of four valid records in
`cTieL1`, reordering the input changes the record `("X.near", "5")`'s tree
index and the bytes of its generated proof, although the roots agree.  The
three tied records occupy three adjacent leaf slots in stable input order,
so the record moves from one end of the tied block (slot 5, proof
`[tree[6], tree[1]]`) to the other (slot 3, proof `[tree[4], tree[2]]`);
the first proof elements are the digests of two different records — the
untied record's and a tied record's — and so differ under every hash that
separates those two normalized values.  The digest order that places the
tied block at slots 5, 4, 3 here (untied digest below the tied digest) is
also the order the deployed keccak256 produces for these records, and under
the opposite order the tied block sits at slots 6, 5, 4 and the two proofs
differ in the same way. -/
theorem C5_counterexample :
    cTieL1.Perm cTieL2 ∧
    ofTree cHash cTieL1 cEnc = .ok cTieT1 ∧
    ofTree cHash cTieL2 cEnc = .ok cTieT2 ∧
    getRoot cTieT1 = getRoot cTieT2 ∧
    cTieT1.tree = cTieT2.tree ∧
    (cTieT1.values.getD 1 ⟨("", ""), 0⟩).value =
      (cTieT2.values.getD 3 ⟨("", ""), 0⟩).value ∧
    (cTieT1.values.getD 1 ⟨("", ""), 0⟩).treeIndex ≠
      (cTieT2.values.getD 3 ⟨("", ""), 0⟩).treeIndex ∧
    getProof cTieT1 (cTieT1.values.getD 1 ⟨("", ""), 0⟩).treeIndex ≠
      getProof cTieT2 (cTieT2.values.getD 3 ⟨("", ""), 0⟩).treeIndex := by
  refine ⟨by decide, by decide, by decide, by decide, by decide, by decide, by decide,
    by decide⟩

/-- The leaf triples of the reversed sample list. -/
def cLsRev : List LeafTriple := forceLeaves (leavesAux cHash 0 cValsRev)

/-- Witness for C5 (amended): reversing the three sample records — whose
leaf digests are pairwise distinct — yields the same node array, root, and
per-record tree indices and proofs. -/
theorem C5_order_independence_witness :
    cTree.tree = cTreeRev.tree ∧ getRoot cTree = getRoot cTreeRev ∧
    ∀ mv1 ∈ cTree.values, ∀ mv2 ∈ cTreeRev.values, mv1.value = mv2.value →
      mv1.treeIndex = mv2.treeIndex ∧
      getProof cTree mv1.treeIndex = getProof cTreeRev mv2.treeIndex :=
  have h := C5_order_independence cHash cVals cValsRev cEnc cTree cTreeRev cLs cLsRev
    (by decide) (by decide) (by decide) (by decide) (List.reverse_perm cVals).symm
  ⟨h.1, h.2.1, h.2.2 (by decide)⟩

/-! Section: Claim C3: single versus double leaf hashing -/

/-- The encoded bytes of the normalized record `("alice.near", "100")`. -/
def cAliceEnc : List Nat :=
  ((convertValue ("alice.near", "100")).bind encodeValue).toOption.getD []

/-- Claim C3 (failing direction): the code derives every leaf digest with a
single application of the hash to the encoded normalized value — in `of` and
in `verify` alike — whereas the spec and the repository's own test
documentation call for `doubleHash`; at the concrete record
`("alice.near", "100")` the single- and double-hash digests differ. -/
theorem C3_leaf_digest_single_hash :
    (∀ (H : List Nat → List Nat) (v : String × String),
      leafDigest H v = (convertValue v).bind (fun c => (encodeValue c).map H)) ∧
    leafDigest cHash ("alice.near", "100") = .ok (cHash cAliceEnc) ∧
    cHash cAliceEnc ≠ doubleHashSpec cHash cAliceEnc := by
  refine ⟨?_, by decide, by decide⟩
  intro H v
  unfold leafDigest
  simp only [bind, Except.bind]
  cases hc : convertValue v with
  | error e => rfl
  | ok c =>
    dsimp only
    cases he : encodeValue c with
    | error e => rfl
    | ok e => rfl

/-! Section: Claim C4: identifier normalization -/

/-- Counterexample for C4 as stated: in the record form the `account`
field `"AB"` has no dot and is not 64 hex characters, yet the code only
lower-cases it — it is not padded to 64 characters as the claim requires
for every identifier field. -/
theorem C4_counterexample :
    convertValueRec ⟨"AB", "x.near", "1"⟩ = .ok ⟨"ab", "x.near", "1"⟩ ∧
    containsChar (jsToLower "AB") '.' = false ∧
    isHex64 (jsToLower "AB") = false ∧
    ("ab" : String).data.length ≠ 64 := by
  refine ⟨by decide, by decide, by decide, by decide⟩

/-- Claim C4 (amended): normalization lower-cases every identifier; the
strip-`0x`-and-left-pad-to-64 rule applies to the tuple form's address and
to the record form's lockup field, while the record form's account field is
only lower-cased, never padded. -/
theorem C4_identifier_normalization :
    (∀ a amt r, convertValue (a, amt) = .ok r → r.1 = normalizeId a) ∧
    (∀ v r, convertValueRec v = .ok r →
      r.account = jsToLower v.account ∧ r.lockup = normalizeId v.lockup) ∧
    (∀ x, containsChar (jsToLower x) '.' = false → isHex64 (jsToLower x) = false →
      normalizeId x =
        padStart (if startsWith0x (jsToLower x) then dropTwo (jsToLower x)
          else jsToLower x) 64 '0') ∧
    (∀ s : String, (padStart s 64 '0').data =
        List.replicate (64 - s.data.length) '0' ++ s.data ∧
      (padStart s 64 '0').data.length = max 64 s.data.length) := by
  refine ⟨?_, ?_, ?_, ?_⟩
  · intro a amt r hr
    unfold convertValue at hr
    by_cases hv : amountValid amt = false
    · rw [if_pos (by exact hv)] at hr
      cases hr
    · rw [if_neg (by exact hv)] at hr
      cases hr
      rfl
  · intro v r hr
    unfold convertValueRec at hr
    by_cases hv : amountValid v.amount = false
    · rw [if_pos (by exact hv)] at hr
      cases hr
    · rw [if_neg (by exact hv)] at hr
      cases hr
      exact ⟨rfl, rfl⟩
  · intro x h1 h2
    simp [normalizeId, h1, h2]
  · intro s
    unfold padStart
    by_cases h : 64 ≤ s.data.length
    · rw [if_pos h]
      refine ⟨?_, by omega⟩
      rw [show 64 - s.data.length = 0 from by omega, List.replicate_zero, List.nil_append]
    · rw [if_neg h]
      refine ⟨rfl, ?_⟩
      show (List.replicate (64 - s.data.length) '0' ++ s.data).length = _
      rw [List.length_append, List.length_replicate]
      omega

/-- The converted form of the tuple record `("0xAB", "1")`. -/
def cConv1 : String × String := (convertValue ("0xAB", "1")).toOption.getD ("", "")

/-- The converted form of the record `⟨"AB", "x.near", "1"⟩`. -/
def cRec1 : MerkleTreeData :=
  (convertValueRec ⟨"AB", "x.near", "1"⟩).toOption.getD ⟨"", "", ""⟩

/-- Witness for C4 (amended) at concrete records of both forms. -/
theorem C4_identifier_normalization_witness :
    cConv1.1 = normalizeId "0xAB" ∧
    cRec1.account = jsToLower "AB" ∧ cRec1.lockup = normalizeId "x.near" :=
  ⟨C4_identifier_normalization.1 "0xAB" "1" cConv1 (by decide),
    C4_identifier_normalization.2.1 ⟨"AB", "x.near", "1"⟩ cRec1 (by decide)⟩

/-! Section: Claim C7: amount validation and canonicalization -/

theorem fracOk_iff : ∀ l : List Char, fracOk l = true ↔ ∀ c ∈ l, c.isDigit = true := by
  intro l
  induction l with
  | nil => simp [fracOk]
  | cons c cs ih =>
    simp only [fracOk, Bool.and_eq_true, List.mem_cons, ih]
    constructor
    · rintro ⟨h1, h2⟩ x hx
      rcases hx with h | h
      · subst h; exact h1
      · exact h2 x h
    · intro h
      exact ⟨h c (Or.inl rfl), fun x hx => h x (Or.inr hx)⟩

theorem intFracOk_iff : ∀ l : List Char, intFracOk l = true ↔
    ((∀ c ∈ l, c.isDigit = true) ∨
      ∃ ds fs, l = ds ++ '.' :: fs ∧ (∀ c ∈ ds, c.isDigit = true) ∧
        (∀ c ∈ fs, c.isDigit = true)) := by
  intro l
  induction l with
  | nil =>
    simp only [intFracOk]
    constructor
    · intro _
      exact Or.inl (by simp)
    · intro _
      trivial
  | cons c cs ih =>
    by_cases hdot : c = '.'
    · subst hdot
      have hstep : intFracOk ('.' :: cs) = fracOk cs := by simp [intFracOk]
      rw [hstep, fracOk_iff]
      constructor
      · intro h
        exact Or.inr ⟨[], cs, by simp, by simp, h⟩
      · rintro (h | ⟨ds, fs, heq, hds, hfs⟩)
        · exact absurd (h '.' (List.mem_cons_self _ _)) (by decide)
        · cases ds with
          | nil =>
            simp only [List.nil_append, List.cons.injEq] at heq
            rw [heq.2]
            exact hfs
          | cons d ds' =>
            simp only [List.cons_append, List.cons.injEq] at heq
            have : d = '.' := heq.1.symm
            subst this
            exact absurd (hds '.' (List.mem_cons_self _ _)) (by decide)
    · simp only [intFracOk, if_neg hdot, Bool.and_eq_true, ih]
      constructor
      · rintro ⟨h1, h2 | ⟨ds, fs, heq, hds, hfs⟩⟩
        · refine Or.inl ?_
          intro x hx
          rcases List.mem_cons.mp hx with h | h
          · subst h; exact h1
          · exact h2 x h
        · refine Or.inr ⟨c :: ds, fs, by rw [heq, List.cons_append], ?_, hfs⟩
          intro x hx
          rcases List.mem_cons.mp hx with h | h
          · subst h; exact h1
          · exact hds x h
      · rintro (h | ⟨ds, fs, heq, hds, hfs⟩)
        · exact ⟨h c (List.mem_cons_self _ _),
            Or.inl (fun x hx => h x (List.mem_cons_of_mem _ hx))⟩
        · cases ds with
          | nil =>
            simp only [List.nil_append, List.cons.injEq] at heq
            exact absurd heq.1 hdot
          | cons d ds' =>
            simp only [List.cons_append, List.cons.injEq] at heq
            have hdc : c = d := heq.1
            subst hdc
            refine ⟨hds c (List.mem_cons_self _ _), Or.inr ⟨ds', fs, heq.2, ?_, hfs⟩⟩
            exact fun x hx => hds x (List.mem_cons_of_mem _ hx)

theorem amountValid_iff (s : String) : amountValid s = true ↔ AmountRe s := by
  unfold amountValid AmountRe
  cases hs : s.data with
  | nil =>
    simp only [Bool.false_eq_true, false_iff]
    rintro ⟨ip, fp, hd, hip, _⟩
    rcases hd with hd | hd
    · cases ip with
      | nil => exact hip rfl
      | cons a b => cases hd
    · cases ip with
      | nil => cases hd
      | cons a b => cases hd
  | cons c cs =>
    simp only [Bool.and_eq_true, intFracOk_iff]
    constructor
    · rintro ⟨h1, h2 | ⟨ds, fs, heq, hds, hfs⟩⟩
      · refine ⟨c :: cs, [], Or.inl rfl, by simp, ?_, by simp⟩
        intro x hx
        rcases List.mem_cons.mp hx with h | h
        · subst h; exact h1
        · exact h2 x h
      · refine ⟨c :: ds, fs, Or.inr (by rw [heq, List.cons_append]), by simp, ?_, hfs⟩
        intro x hx
        rcases List.mem_cons.mp hx with h | h
        · subst h; exact h1
        · exact hds x h
    · rintro ⟨ip, fp, hd, hip, hipd, hfpd⟩
      rcases hd with hd | hd
      · cases ip with
        | nil => exact absurd rfl hip
        | cons a b =>
          simp only [List.cons.injEq] at hd
          refine ⟨?_, Or.inl ?_⟩
          · rw [hd.1]; exact hipd a (List.mem_cons_self _ _)
          · rw [hd.2]
            exact fun x hx => hipd x (List.mem_cons_of_mem _ hx)
      · cases ip with
        | nil => exact absurd rfl hip
        | cons a b =>
          simp only [List.cons_append, List.cons.injEq] at hd
          refine ⟨?_, Or.inr ⟨b, fp, hd.2, ?_, hfpd⟩⟩
          · rw [hd.1]; exact hipd a (List.mem_cons_self _ _)
          · exact fun x hx => hipd x (List.mem_cons_of_mem _ hx)

theorem natDigitsRevAux_irrel : ∀ n f1 f2, n < f1 → n < f2 →
    natDigitsRevAux f1 n = natDigitsRevAux f2 n := by
  intro n
  induction n using Nat.strong_induction_on with
  | _ n ih =>
    intro f1 f2 h1 h2
    cases f1 with
    | zero => omega
    | succ g1 =>
      cases f2 with
      | zero => omega
      | succ g2 =>
        simp only [natDigitsRevAux]
        by_cases h10 : n < 10
        · rw [if_pos h10, if_pos h10]
        · rw [if_neg h10, if_neg h10]
          congr 1
          exact ih (n / 10) (by omega) g1 g2 (by omega) (by omega)

theorem natDigitsRev_eq (n : Nat) : natDigitsRev n =
    if n < 10 then [digitChar n] else digitChar (n % 10) :: natDigitsRev (n / 10) := by
  unfold natDigitsRev
  show natDigitsRevAux (n + 1) n = _
  rw [show natDigitsRevAux (n + 1) n =
    (if n < 10 then [digitChar n] else digitChar (n % 10) :: natDigitsRevAux n (n / 10))
    from rfl]
  by_cases h : n < 10
  · rw [if_pos h, if_pos h]
  · rw [if_neg h, if_neg h]
    congr 1
    exact natDigitsRevAux_irrel (n / 10) n (n / 10 + 1) (by omega) (by omega)

theorem digitChar_toNat : ∀ d, d < 10 → (digitChar d).toNat = 48 + d := by decide

theorem natDigitsRev_foldr : ∀ n : Nat,
    (natDigitsRev n).foldr (fun c acc => 10 * acc + (c.toNat - 48)) 0 = n := by
  intro n
  induction n using Nat.strong_induction_on with
  | _ n ih =>
    rw [natDigitsRev_eq]
    by_cases h : n < 10
    · rw [if_pos h]
      simp only [List.foldr_cons, List.foldr_nil]
      rw [digitChar_toNat n h]
      omega
    · rw [if_neg h]
      simp only [List.foldr_cons]
      rw [ih (n / 10) (by omega)]
      rw [digitChar_toNat (n % 10) (by omega)]
      omega

theorem parseDec_decRepr (n : Nat) : parseDec (decRepr n) = n := by
  unfold parseDec decRepr
  show List.foldl _ 0 (natDigitsRev n).reverse = n
  rw [List.foldl_reverse]
  exact natDigitsRev_foldr n

theorem natDigitsRev_ne_nil (n : Nat) : natDigitsRev n ≠ [] := by
  rw [natDigitsRev_eq]
  by_cases h : n < 10
  · rw [if_pos h]; simp
  · rw [if_neg h]; simp

theorem decRepr_head_ne_zero : ∀ n : Nat, n ≠ 0 →
    (decRepr n).data.getD 0 '0' ≠ '0' := by
  intro n
  induction n using Nat.strong_induction_on with
  | _ n ih =>
    intro hn0
    show ((natDigitsRev n).reverse).getD 0 '0' ≠ '0'
    rw [natDigitsRev_eq]
    by_cases h : n < 10
    · rw [if_pos h]
      have : ∀ d, d < 10 → d ≠ 0 → digitChar d ≠ '0' := by decide
      simpa using this n h hn0
    · rw [if_neg h]
      rw [List.reverse_cons]
      have hne : (natDigitsRev (n / 10)).reverse.length ≠ 0 := by
        rw [List.length_reverse]
        intro hc
        exact natDigitsRev_ne_nil (n / 10) (List.eq_nil_of_length_eq_zero hc)
      rw [List.getD_append _ _ _ _ (by omega)]
      exact ih (n / 10) (by omega) (by omega)

theorem intPartChars_append : ∀ xs ys : List Char, '.' ∉ xs →
    intPartChars (xs ++ '.' :: ys) = xs := by
  intro xs
  induction xs with
  | nil => intro ys _; simp [intPartChars]
  | cons x xs' ih =>
    intro ys hx
    simp only [List.cons_append, intPartChars]
    rw [if_neg (by intro hc; exact hx (hc ▸ List.mem_cons_self _ _))]
    rw [show xs'.append ('.' :: ys) = xs' ++ '.' :: ys from rfl]
    rw [ih ys (fun hc => hx (List.mem_cons_of_mem _ hc))]

/-- Claim C7: value normalization fails if and only if the amount string
does not match `^\d+(\.\d*)?$`; when it matches, the text before the first
dot is parsed as an arbitrary-precision unsigned integer and re-stringified
to its canonical decimal form with no leading zeros, and fractional digits
are discarded unconditionally. -/
theorem C7_amount_validation :
    (∀ s, amountValid s = true ↔ AmountRe s) ∧
    (∀ a amt, (∃ r, convertValue (a, amt) = .ok r) ↔ AmountRe amt) ∧
    (∀ v, (∃ r, convertValueRec v = .ok r) ↔ AmountRe v.amount) ∧
    (∀ a amt r, convertValue (a, amt) = .ok r →
      r.2 = decRepr (parseDec (intPart amt)) ∧
      parseDec r.2 = parseDec (intPart amt) ∧
      r.2.data ≠ [] ∧ (r.2.data.getD 0 '0' = '0' → r.2 = "0")) ∧
    (∀ ip fp : String, containsChar ip '.' = false →
      intPart (ip ++ "." ++ fp) = ip) := by
  refine ⟨amountValid_iff, ?_, ?_, ?_, ?_⟩
  · intro a amt
    rw [← amountValid_iff]
    unfold convertValue
    constructor
    · rintro ⟨r, hr⟩
      by_cases hv : amountValid amt = false
      · rw [if_pos (by exact hv)] at hr; cases hr
      · simpa using hv
    · intro hv
      rw [if_neg (by rw [hv]; exact fun hc => by cases hc)]
      exact ⟨_, rfl⟩
  · intro v
    rw [← amountValid_iff]
    unfold convertValueRec
    constructor
    · rintro ⟨r, hr⟩
      by_cases hv : amountValid v.amount = false
      · rw [if_pos (by exact hv)] at hr; cases hr
      · simpa using hv
    · intro hv
      rw [if_neg (by rw [hv]; exact fun hc => by cases hc)]
      exact ⟨_, rfl⟩
  · intro a amt r hr
    unfold convertValue at hr
    by_cases hv : amountValid amt = false
    · rw [if_pos (by exact hv)] at hr; cases hr
    · rw [if_neg (by exact hv)] at hr
      cases hr
      refine ⟨rfl, parseDec_decRepr _, ?_, ?_⟩
      · show ((natDigitsRev _).reverse) ≠ []
        intro hc
        exact natDigitsRev_ne_nil _ (by simpa using congrArg List.reverse hc)
      · intro hz
        by_cases h0 : parseDec (intPart amt) = 0
        · show decRepr _ = "0"
          rw [h0]
          rfl
        · exact absurd hz (decRepr_head_ne_zero _ h0)
  · intro ip fp hip
    have hmem : '.' ∉ ip.data := by
      intro hc
      have he : ip.data.elem '.' = true := List.elem_iff.mpr hc
      unfold containsChar at hip
      rw [show ip.data.contains '.' = ip.data.elem '.' from rfl, he] at hip
      cases hip
    unfold intPart
    rw [string_data_append, string_data_append]
    rw [show ("." : String).data = ['.'] from rfl, List.append_assoc]
    rw [show ['.'] ++ fp.data = '.' :: fp.data from rfl]
    rw [intPartChars_append ip.data fp.data hmem]

/-- The converted form of the tuple record `("x.y", "007.5")`. -/
def cConv75 : String × String := (convertValue ("x.y", "007.5")).toOption.getD ("", "")

/-- Witness for C7: the amount `"007.5"` is accepted, its fractional part is
discarded, and its integer part is canonicalized to `"7"`. -/
theorem C7_amount_validation_witness :
    (amountValid "007.5" = true ↔ AmountRe "007.5") ∧
    cConv75.2 = decRepr (parseDec (intPart "007.5")) ∧
    parseDec cConv75.2 = parseDec (intPart "007.5") ∧
    intPart ("007" ++ "." ++ "5") = "007" :=
  ⟨C7_amount_validation.1 "007.5",
    (C7_amount_validation.2.2.2.1 "x.y" "007.5" cConv75 (by decide)).1,
    (C7_amount_validation.2.2.2.1 "x.y" "007.5" cConv75 (by decide)).2.1,
    C7_amount_validation.2.2.2.2 "007" "5" (by decide)⟩

/-! Section: Claim C8: root representation -/

/-- A serialized byte-array-variant tree whose root is 32 zero bytes. -/
def cDumpB : TreeDumpB :=
  ⟨"near-v1", [List.replicate 32 0], [], ["account", "lockup", "amount"]⟩

/-- The loaded byte-array-variant tree. -/
def cTreeB : TreeB := (loadB cDumpB).toOption.getD ⟨[], [], []⟩

/-- Counterexample for C8 as stated: the byte-array variant's `getRoot`
returns `JSON.stringify` of the byte array at `tree[0]`, which is not a
`'0x'`-prefixed 64-hex-character string. -/
theorem C8_counterexample :
    loadB cDumpB = .ok cTreeB ∧
    startsWith0x (getRootB cTreeB) = false ∧
    (getRootB cTreeB).data.length ≠ 66 := by
  refine ⟨by decide, by decide, by decide⟩

/-- Claim C8 (amended): `getRoot` returns the root commitment stored at tree
index 0 — in the hex-string variant the string `tree[0]`, which for every
built tree is a `'0x'`-prefixed 64-hex-character string representing 32
bytes; in the byte-array variant the JSON rendering of the byte array at
index 0. -/
theorem C8_root_representation :
    (∀ t : NearMerkleTree, getRoot t = t.tree.getD 0 "") ∧
    (∀ tb : TreeB, getRootB tb = jsonNumberArray (tb.tree.getD 0 [])) ∧
    (∀ H : List Nat → List Nat, HBytes H → (∀ bs, (H bs).length = 32) →
      ∀ vals le' t, ofTree H vals le' = .ok t →
        startsWith0x (getRoot t) = true ∧
        (getRoot t).data.length = 66 ∧
        ∀ c ∈ (getRoot t).data.drop 2, c.isDigit = true ∨ ('a' ≤ c ∧ c ≤ 'f')) := by
  refine ⟨fun t => rfl, fun tb => rfl, ?_⟩
  intro H hH hL vals le' t h
  rcases ofTree_ok H vals le' h with ⟨h0, ls, hls, ht⟩
  have hlen := leavesAux_length H vals 0 ls hls
  have hN : 1 ≤ vals.length := by omega
  have hroot : ∃ x, t.tree.getD 0 "" = mkHex (H x) := by
    rw [ht]
    exact assemble_nodeOk H vals le' ls hls hlen hN 0 (by omega)
  rcases hroot with ⟨x, hx⟩
  have hdata : (getRoot t).data = '0' :: 'x' :: hexChars (H x) := by
    show (t.tree.getD 0 "").data = _
    rw [hx]
    rfl
  refine ⟨?_, ?_, ?_⟩
  · unfold startsWith0x
    rw [hdata]
    rfl
  · rw [hdata]
    simp only [List.length_cons, hexChars_length, hL]
  · intro c hc
    rw [hdata] at hc
    simp only [List.drop_succ_cons, List.drop_zero] at hc
    exact hexChars_mem (hH x) hc

/-- Witness for C8 (amended) at the two-record sample tree. -/
theorem C8_root_representation_witness :
    getRoot cTree2 = cTree2.tree.getD 0 "" ∧
    getRootB cTreeB = jsonNumberArray (cTreeB.tree.getD 0 []) ∧
    startsWith0x (getRoot cTree2) = true ∧
    (getRoot cTree2).data.length = 66 ∧
    (∀ c ∈ (getRoot cTree2).data.drop 2, c.isDigit = true ∨ ('a' ≤ c ∧ c ≤ 'f')) := by
  have h := C8_root_representation.2.2 cHash cHash_bytes cHash_length cVals2 cEnc cTree2
    (by decide)
  exact ⟨C8_root_representation.1 cTree2, C8_root_representation.2.1 cTreeB,
    h.1, h.2.1, h.2.2⟩

end NearClaim
